import Mathlib

/-!
Verification of the minimal cJSON implementation bundled with the file agent
(`cJSON.c` / `cJSON.h`): the value model, the recursive-descent parser, the
compact serializer, the allocator-hook registry and the accessor/builder API.

The C code is shallowly embedded:

* C text memory is a `List Char`; reading a byte is `chAt`, which yields the
  NUL character `'\x00'` beyond the end of the list.  This models both the
  NUL terminator a `char *` argument carries and the code's own habit of
  scanning until it meets a NUL byte.  Interior NUL bytes of C strings cannot
  occur (a C string ends at its first NUL), which the goodness predicates
  reflect.
* a C `double` is `CDouble`: NaN, signed infinity, or a finite value held as
  an unnormalised integer fraction `num / den` with `den > 0`.  Decimal text
  is converted exactly (no binary rounding), which is faithful for every
  value the claims touch (integers below `2^53` and short decimal fractions,
  all exactly representable in binary64).
* a C `int` is `Int`; the cast `(int)d` is truncation toward zero
  (`Int.tdiv`), faithful while the value is in the range of `int`
  (out-of-range casts are undefined behaviour in C and are kept out of the
  goodness predicates).
* allocation never fails in the model (allocation-failure unwinding is
  control flow the claims do not touch); for the allocator-routing claim the
  allocation *sites* are modelled separately as event traces naming which
  allocator each call uses.
* the mutually recursive parser functions take an explicit fuel argument,
  structurally decreased at every call.  The C recursion is bounded by the
  input, and `parse_fuel` at the public entry points is proved large enough
  wherever a claim needs a successful parse; fuel exhaustion is reported as
  an ordinary parse failure.
* `sprintf("%g", d)` is modelled by `fmtG`, an exact decimal rendering
  (integer part, then the fractional digits, at most 17 of them): sign,
  digits, optionally a dot and more digits.  This agrees with `%g` on every
  value the claims evaluate (for example `3.5`); it differs from `%g` only
  in regimes (huge or tiny magnitudes, more than six significant digits)
  that no claim touches.  `strtod` is modelled by `strtodScan` over the
  decimal grammar it accepts (sign, digits, fraction, exponent), again with
  exact rational values.
-/

/-! ## Characters and memory -/

/-- The NUL byte, the C string terminator. -/
def nulc : Char := Char.ofNat 0

/-- Read a byte of C memory: `mem[i]`, and NUL once past the end of the
modelled allocation (the terminator of a `char *`, or unspecified memory the
code should never depend on). -/
def chAt (mem : List Char) (i : Nat) : Char := mem.getD i nulc

theorem chAt_append_right (l r : List Char) (k : Nat) :
    chAt (l ++ r) (l.length + k) = chAt r k := by
  simp [chAt, List.getD, List.getElem?_append_right (Nat.le_add_right l.length k)]

theorem chAt_append_left (l r : List Char) (k : Nat) (h : k < l.length) :
    chAt (l ++ r) k = chAt l k := by
  simp [chAt, List.getD, List.getElem?_append, h]

theorem chAt_oob (l : List Char) (k : Nat) (h : l.length ≤ k) :
    chAt l k = nulc := by
  simp [chAt, List.getD, List.getElem?_eq_none h]

theorem chAt_lt_length {l : List Char} {k : Nat} (h : chAt l k ≠ nulc) :
    k < l.length := by
  by_contra hk
  exact h (chAt_oob l k (Nat.le_of_not_lt hk))

theorem chAt_cons_zero (c : Char) (l : List Char) : chAt (c :: l) 0 = c := rfl

theorem chAt_cons_succ (c : Char) (l : List Char) (k : Nat) :
    chAt (c :: l) (k + 1) = chAt l k := rfl

/-- Model of `strncmp(mem + i, lit, n) == 0` for a NUL-free literal `lit` of
length `n`: the next `lit.length` bytes of memory equal `lit`. -/
def strncmp0 (mem : List Char) (i : Nat) : List Char → Bool
  | [] => true
  | c :: cs => chAt mem i = c && strncmp0 mem (i + 1) cs

/-- Model of `strlen`: the number of bytes before the first NUL. -/
def cstrlen : List Char → Nat
  | [] => 0
  | c :: cs => if c = nulc then 0 else cstrlen cs + 1

/-- ASCII decimal digit test, `'0' <= c && c <= '9'`. -/
def isDigitCh (c : Char) : Bool := 48 ≤ c.toNat && c.toNat ≤ 57

/-- Model of `tolower` for the ASCII range, as used by `strcasecmp`. -/
def asciiLower (c : Char) : Char :=
  if 65 ≤ c.toNat ∧ c.toNat ≤ 90 then Char.ofNat (c.toNat + 32) else c

/-- Model of `strcasecmp(a, b) == 0`: equality up to ASCII case. -/
def strcaseeq : List Char → List Char → Bool
  | [], [] => true
  | a :: as, b :: bs => asciiLower a = asciiLower b && strcaseeq as bs
  | _, _ => false

/-! ## The C `double` model -/

/-- Model of a C `double`: NaN, a signed infinity, or a finite value held as
the exact fraction `num / den` (not necessarily in lowest terms, `den > 0` by
construction everywhere the library builds one). -/
inductive CDouble where
  | finite (num : Int) (den : Int)
  | nan
  | inf (neg : Bool)
deriving DecidableEq, Repr

/-- Truncation toward zero of `num / den`, the C cast `(int)` applied to a
finite double (faithful while the result is in the range of `int`). -/
def dtrunc : CDouble → Int
  | .finite n d => Int.tdiv n d
  | _ => 0

/-- Numeric equality of two doubles (`==` in C): finite values compare by
cross multiplication, NaN compares equal to nothing, infinities by sign. -/
def dEq : CDouble → CDouble → Bool
  | .finite n d, .finite n' d' => n * d' = n' * d
  | .inf s, .inf s' => s = s'
  | _, _ => false

/-- The comparison `d == (double)i` of a double against an `int` value. -/
def dEqInt (d : CDouble) (i : Int) : Bool := dEq d (.finite i 1)

/-! ## The node type -/

def cJSON_Invalid : Nat := 0
def cJSON_False : Nat := 1
def cJSON_True : Nat := 2
def cJSON_NULL : Nat := 4
def cJSON_Number : Nat := 8
def cJSON_String : Nat := 16
def cJSON_Array : Nat := 32
def cJSON_Object : Nat := 64
def cJSON_Raw : Nat := 128
def cJSON_IsReference : Nat := 256
def cJSON_StringIsConst : Nat := 512

/-- The `cJSON` node.  The intrusive `next`/`prev`/`child` pointers of the C
struct become the `child` list of a node (sibling order is list order); the
other fields are carried verbatim.  `valuestring` and `string` are nullable
`char *` fields, hence `Option`. -/
inductive cJSONv where
  | mk (type : Nat) (valuestring : Option (List Char)) (valueint : Int)
      (valuedouble : CDouble) (string : Option (List Char))
      (child : List cJSONv)

def cJSONv.type : cJSONv → Nat
  | .mk t _ _ _ _ _ => t

def cJSONv.valuestring : cJSONv → Option (List Char)
  | .mk _ vs _ _ _ _ => vs

def cJSONv.valueint : cJSONv → Int
  | .mk _ _ vi _ _ _ => vi

def cJSONv.valuedouble : cJSONv → CDouble
  | .mk _ _ _ vd _ _ => vd

def cJSONv.string : cJSONv → Option (List Char)
  | .mk _ _ _ _ s _ => s

def cJSONv.child : cJSONv → List cJSONv
  | .mk _ _ _ _ _ ch => ch

/-- Write the `string` (key) field of a node, as `parse_object` does after
parsing a member's value. -/
def cJSONv.withKey (t : cJSONv) (k : Option (List Char)) : cJSONv :=
  match t with
  | .mk ty vs vi vd _ ch => .mk ty vs vi vd k ch

/-- A fresh zeroed node, `cJSON_New_Item` (`malloc` + `memset 0`). -/
def cJSON_New_Item : cJSONv := .mk 0 none 0 (.finite 0 1) none []

/-! ## Type predicates

`item` is a nullable pointer, hence `Option cJSONv`.  Each predicate is the
C function's boolean result. -/

def cJSON_IsInvalid : Option cJSONv → Bool
  | none => true
  | some item => item.type &&& 0xFF = cJSON_Invalid

def cJSON_IsFalse : Option cJSONv → Bool
  | none => false
  | some item => item.type &&& 0xFF = cJSON_False

def cJSON_IsTrue : Option cJSONv → Bool
  | none => false
  | some item => item.type &&& 0xFF = cJSON_True

def cJSON_IsBool : Option cJSONv → Bool
  | none => false
  | some item => item.type &&& 0xFF = cJSON_True || item.type &&& 0xFF = cJSON_False

def cJSON_IsNull : Option cJSONv → Bool
  | none => false
  | some item => item.type &&& 0xFF = cJSON_NULL

def cJSON_IsNumber : Option cJSONv → Bool
  | none => false
  | some item => item.type &&& 0xFF = cJSON_Number

def cJSON_IsString : Option cJSONv → Bool
  | none => false
  | some item => item.type &&& 0xFF = cJSON_String

def cJSON_IsArray : Option cJSONv → Bool
  | none => false
  | some item => item.type &&& 0xFF = cJSON_Array

def cJSON_IsObject : Option cJSONv → Bool
  | none => false
  | some item => item.type &&& 0xFF = cJSON_Object

def cJSON_IsRaw : Option cJSONv → Bool
  | none => false
  | some item => item.type &&& 0xFF = cJSON_Raw

/-! ## Builders -/

def cJSON_CreateNull : cJSONv := .mk cJSON_NULL none 0 (.finite 0 1) none []

def cJSON_CreateTrue : cJSONv := .mk cJSON_True none 0 (.finite 0 1) none []

def cJSON_CreateFalse : cJSONv := .mk cJSON_False none 0 (.finite 0 1) none []

def cJSON_CreateBool (b : Bool) : cJSONv :=
  .mk (if b then cJSON_True else cJSON_False) none 0 (.finite 0 1) none []

/-- `cJSON_CreateNumber`: stores the double and its `(int)` truncation. -/
def cJSON_CreateNumber (num : CDouble) : cJSONv :=
  .mk cJSON_Number none (dtrunc num) num none []

/-- `cJSON_CreateString`: a NULL argument is stored as a NULL `valuestring`
(no failure); otherwise the string is copied with `strdup`. -/
def cJSON_CreateString (s : Option (List Char)) : cJSONv :=
  .mk cJSON_String s 0 (.finite 0 1) none []

def cJSON_CreateRaw (raw : Option (List Char)) : cJSONv :=
  .mk cJSON_Raw raw 0 (.finite 0 1) none []

def cJSON_CreateArray : cJSONv := .mk cJSON_Array none 0 (.finite 0 1) none []

def cJSON_CreateObject : cJSONv := .mk cJSON_Object none 0 (.finite 0 1) none []

/-- `add_item_to_array`: append `item` at the tail of the sibling chain of
`array` (no type check on `array` in the C code). -/
def add_item_to_array (array : cJSONv) (item : cJSONv) : cJSONv :=
  match array with
  | .mk ty vs vi vd s ch => .mk ty vs vi vd s (ch ++ [item])

/-- `add_item_to_object`: set the member key (an owned `strdup` copy, or the
caller's constant pointer together with the `cJSON_StringIsConst` flag), then
append like `add_item_to_array`. -/
def add_item_to_object (object : cJSONv) (key : List Char) (item : cJSONv)
    (constant_key : Bool) : cJSONv :=
  let item' :=
    match item with
    | .mk ty vs vi vd _ ch =>
      if constant_key then .mk (ty ||| cJSON_StringIsConst) vs vi vd (some key) ch
      else .mk ty vs vi vd (some key) ch
  add_item_to_array object item'

def cJSON_AddItemToObject (object : cJSONv) (key : List Char) (item : cJSONv) : cJSONv :=
  add_item_to_object object key item false

def cJSON_AddItemToObjectCS (object : cJSONv) (key : List Char) (item : cJSONv) : cJSONv :=
  add_item_to_object object key item true

/-! ## Allocation routing

cJSON.c keeps a process-wide pair `global_malloc` / `global_free`, set by
`cJSON_InitHooks` and defaulting to the platform allocator.  To check the
claim that *every* allocation is routed through that pair, each allocation
site is tagged by which allocator the C code calls there: `hooked` for a
call through `global_malloc`, and `libc` for a direct call into the platform
allocator (`strdup` allocates with plain `malloc` internally, never through
the hooks). -/

inductive AllocSource where
  | hooked
  | libc
deriving DecidableEq, Repr

/-- Allocation events of `cJSON_CreateString`: one `global_malloc` for the
node (`cJSON_New_Item`), then —when the argument is non-NULL— one `strdup`,
which allocates with the platform `malloc` directly. -/
def cJSON_CreateString_allocs (s : Option (List Char)) : List AllocSource :=
  [.hooked] ++ (if s.isSome then [.libc] else [])

/-- Allocation events of `add_item_to_object`: with an owned key the key copy
is made by `strdup` (platform `malloc`); with a constant key nothing is
allocated. -/
def add_item_to_object_allocs (constant_key : Bool) : List AllocSource :=
  if constant_key then [] else [.libc]

/-! ## Accessors -/

def cJSON_GetArraySize (array : Option cJSONv) : Nat :=
  match array with
  | none => 0
  | some a => a.child.length

def cJSON_GetArrayItem (array : Option cJSONv) (index : Int) : Option cJSONv :=
  match array with
  | none => none
  | some a => if index < 0 then none else a.child.get? index.toNat

/-- The child walk of `cJSON_GetObjectItem`: return the first child whose
key is present and `strcasecmp`-equal to the wanted key. -/
def getObjectItem_walk (key : List Char) : List cJSONv → Option cJSONv
  | [] => none
  | c :: cs =>
    match c.string with
    | some s => if strcaseeq s key then some c else getObjectItem_walk key cs
    | none => getObjectItem_walk key cs

/-- The child walk of `cJSON_GetObjectItemCaseSensitive`: return the first
child whose key is present and `strcmp`-equal to the wanted key. -/
def getObjectItemCS_walk (key : List Char) : List cJSONv → Option cJSONv
  | [] => none
  | c :: cs =>
    match c.string with
    | some s => if s = key then some c else getObjectItemCS_walk key cs
    | none => getObjectItemCS_walk key cs

/-- Case-insensitive object member lookup; NULL object or NULL key yields
NULL. -/
def cJSON_GetObjectItem (object : Option cJSONv) (key : Option (List Char)) :
    Option cJSONv :=
  match object, key with
  | some o, some k => getObjectItem_walk k o.child
  | _, _ => none

/-- Case-sensitive object member lookup; NULL object or NULL key yields
NULL. -/
def cJSON_GetObjectItemCaseSensitive (object : Option cJSONv)
    (key : Option (List Char)) : Option cJSONv :=
  match object, key with
  | some o, some k => getObjectItemCS_walk k o.child
  | _, _ => none

def cJSON_HasObjectItem (object : Option cJSONv) (key : Option (List Char)) : Bool :=
  (cJSON_GetObjectItem object key).isSome

/-! ## Decimal formatting (`sprintf` models) -/

/-- Decimal digit character for a value below ten. -/
def digitCh (n : Nat) : Char := Char.ofNat (48 + n)

/-- Lowercase hexadecimal digit character for a value below sixteen, as the
`%x` conversions produce. -/
def hexCh (n : Nat) : Char :=
  if n < 10 then Char.ofNat (48 + n) else Char.ofNat (87 + n)

/-- Decimal digits of a natural number, most significant first.  The first
argument is fuel bounding the recursion depth (one digit per step); `n + 1`
is always enough for `n`. -/
def decDigitsGo : Nat → Nat → List Char
  | 0, _ => []
  | fuel + 1, n =>
    if n < 10 then [digitCh n]
    else decDigitsGo fuel (n / 10) ++ [digitCh (n % 10)]

def natDecDigits (n : Nat) : List Char := decDigitsGo (n + 1) n

/-- Model of `sprintf("%d", i)`. -/
def sprintf_d (i : Int) : List Char :=
  if i < 0 then '-' :: natDecDigits i.natAbs else natDecDigits i.natAbs

/-- Fractional decimal digits of `num / den` (with `0 ≤ num < den`) by long
division: at most `k` digits, stopping early when the remainder vanishes. -/
def fracDigits : Nat → Nat → Nat → List Char
  | 0, _, _ => []
  | _ + 1, 0, _ => []
  | k + 1, num, den => digitCh (num * 10 / den) :: fracDigits k (num * 10 % den) den

/-- Model of `sprintf("%g", d)` for the finite fraction `n / d` (`d > 0`):
sign, the integer part in decimal, then a dot and the fractional digits when
the fraction does not vanish.  Exact for every value the claims evaluate
(such as `3.5`); `%g` would switch to scientific notation or round beyond
six significant digits only in regimes no claim touches. -/
def fmtG (n d : Int) : List Char :=
  let sgn : List Char := if n < 0 then ['-'] else []
  let na := n.natAbs
  let da := d.natAbs
  sgn ++ natDecDigits (na / da) ++
    (if na % da = 0 then [] else '.' :: fracDigits 17 (na % da) da)

/-! ## Serializer -/

/-- Model of `print_number`: NaN and infinities print as `null`; a double
that compares equal to its stored `(int)` view prints with `%d`; anything
else prints with `%g`. -/
def print_number (item : cJSONv) : List Char :=
  match item.valuedouble with
  | .nan => "null".toList
  | .inf _ => "null".toList
  | .finite n d =>
    if dEqInt (.finite n d) item.valueint then sprintf_d item.valueint
    else fmtG n d

/-- Escape one byte as the loop of `print_string_ptr` does: short escapes
for the quote, the backslash and the five named control characters, a
`\u00XX` sequence for any other byte below 32, and the byte itself
otherwise. -/
def escChar (c : Char) : List Char :=
  if c = '"' then ['\\', '"']
  else if c = '\\' then ['\\', '\\']
  else if c.toNat = 8 then ['\\', 'b']
  else if c.toNat = 12 then ['\\', 'f']
  else if c.toNat = 10 then ['\\', 'n']
  else if c.toNat = 13 then ['\\', 'r']
  else if c.toNat = 9 then ['\\', 't']
  else if c.toNat < 32 then ['\\', 'u', '0', '0', hexCh (c.toNat / 16), hexCh (c.toNat % 16)]
  else [c]

def escBody : List Char → List Char
  | [] => []
  | c :: cs => escChar c ++ escBody cs

/-- Model of `print_string_ptr`: a NULL string prints as the empty string;
otherwise the body is escaped byte by byte between quotes.  (The C loop
stops at the first NUL; C strings carry no interior NUL, so the whole list
is the string.) -/
def print_string_ptr (str : Option (List Char)) : List Char :=
  '"' :: escBody (str.getD []) ++ ['"']

mutual

/-- Model of `print_value`: dispatch on `type & 0xFF`; `Raw` prints through
`print_string_ptr` exactly like `String` (the `case cJSON_Raw:` label falls
through to the string case in the C source); an unknown type is a failure
(`NULL` result). -/
def print_value : cJSONv → Option (List Char)
  | .mk ty vs vi vd key ch =>
    if ty &&& 0xFF = cJSON_NULL then some ("null".toList)
    else if ty &&& 0xFF = cJSON_False then some ("false".toList)
    else if ty &&& 0xFF = cJSON_True then some ("true".toList)
    else if ty &&& 0xFF = cJSON_Number then
      some (print_number (.mk ty vs vi vd key ch))
    else if ty &&& 0xFF = cJSON_Raw ∨ ty &&& 0xFF = cJSON_String then
      some (print_string_ptr vs)
    else if ty &&& 0xFF = cJSON_Array then
      match print_items ch with
      | none => none
      | some body => some ('[' :: body ++ [']'])
    else if ty &&& 0xFF = cJSON_Object then
      match print_members ch with
      | none => none
      | some body => some ('{' :: body ++ ['}'])
    else none

/-- The loop of `print_array`: children in sibling order, comma separated. -/
def print_items : List cJSONv → Option (List Char)
  | [] => some []
  | c :: cs =>
    match print_value c with
    | none => none
    | some v =>
      match cs with
      | [] => some v
      | _ :: _ =>
        match print_items cs with
        | none => none
        | some rest => some (v ++ ',' :: rest)

/-- The loop of `print_object`: `"key":value` members in sibling order,
comma separated; the key prints through `print_string_ptr` (so a NULL key
prints as the empty string). -/
def print_members : List cJSONv → Option (List Char)
  | [] => some []
  | c :: cs =>
    match print_value c with
    | none => none
    | some v =>
      match cs with
      | [] => some (print_string_ptr c.string ++ ':' :: v)
      | _ :: _ =>
        match print_members cs with
        | none => none
        | some rest => some ((print_string_ptr c.string ++ ':' :: v) ++ ',' :: rest)

end

/-- Model of `cJSON_PrintUnformatted` (and of `cJSON_Print` and
`cJSON_PrintBuffered`, which alias it): print the value into a growable
buffer.  Buffer growth fails only on allocation failure, which the model
omits, so a NULL result arises exactly when `print_value` rejects the item
(a NULL item or an unknown type). -/
def cJSON_PrintUnformatted (item : Option cJSONv) : Option (List Char) :=
  match item with
  | none => none
  | some t => print_value t

def cJSON_Print (item : Option cJSONv) : Option (List Char) :=
  cJSON_PrintUnformatted item

/-! ## Parser -/

/-- Model of `skip_whitespace`: advance while below `len` over bytes whose
value is at most 32. -/
def skip_whitespace (mem : List Char) (len off : Nat) : Nat :=
  if off < len ∧ (chAt mem off).toNat ≤ 32 then skip_whitespace mem len (off + 1)
  else off
termination_by len - off
decreasing_by omega

/-- The digit loop of `strtod`: consume decimal digits from `i`, returning
the accumulated value and the index after the last digit. -/
def scanDigits (mem : List Char) (i : Nat) (acc : Nat) : Nat × Nat :=
  if isDigitCh (chAt mem i) then
    scanDigits mem (i + 1) (acc * 10 + ((chAt mem i).toNat - 48))
  else (acc, i)
termination_by mem.length - i
decreasing_by
  rename_i h
  have hne : chAt mem i ≠ nulc := by
    intro hz
    rw [hz] at h
    simp [isDigitCh, nulc] at h
  have := chAt_lt_length hne
  omega

/-- Model of `strtod` on its decimal grammar (sign, digits, optional
fraction, optional exponent needing at least one digit), reading memory from
`start` up to a terminating byte.  Returns the exact value as a fraction and
the count of bytes consumed, zero when no conversion was possible.  The
whitespace skip and the hexadecimal/infinity/nan forms of `strtod` are not
modelled: the parser calls it only on input starting with `-` or a digit,
and no claim reaches the other forms. -/
def strtodScan (mem : List Char) (start : Nat) : CDouble × Nat :=
  let s0 :=
    if chAt mem start = '-' then (true, start + 1)
    else if chAt mem start = '+' then (false, start + 1)
    else (false, start)
  let neg := s0.1
  let i0 := s0.2
  let p1 := scanDigits mem i0 0
  let ip := p1.1
  let i1 := p1.2
  let p2 := if chAt mem i1 = '.' then scanDigits mem (i1 + 1) 0 else (0, i1)
  let fv := p2.1
  let i2 := p2.2
  let fdigits := if chAt mem i1 = '.' then i2 - (i1 + 1) else 0
  if i1 = i0 ∧ fdigits = 0 then (.finite 0 1, 0)
  else
    let p3 :=
      if chAt mem i2 = 'e' ∨ chAt mem i2 = 'E' then
        let sE :=
          if chAt mem (i2 + 1) = '-' then (true, i2 + 2)
          else if chAt mem (i2 + 1) = '+' then (false, i2 + 2)
          else (false, i2 + 1)
        let pE := scanDigits mem sE.2 0
        if pE.2 = sE.2 then (0, false, i2) else (pE.1, sE.1, pE.2)
      else (0, false, i2)
    let ex := p3.1
    let exNeg := p3.2.1
    let i3 := p3.2.2
    let mag : Nat := ip * 10 ^ fdigits + fv
    let sgn : Int := if neg then -1 else 1
    let num : Int := sgn * mag * (if exNeg then 1 else (10 : Int) ^ ex)
    let den : Int := ((10 ^ fdigits : Nat) : Int) * (if exNeg then (10 : Int) ^ ex else 1)
    (.finite num den, i3 - start)

/-- Model of `parse_number`: `strtod` from the current offset over a
NUL-terminated view of memory — the explicit buffer length is not consulted.
Zero characters consumed is a hard failure; otherwise the double and its
`(int)` truncation are stored and the offset advances past the consumed
characters (possibly beyond `len`). -/
def parse_number (mem : List Char) (off : Nat) (err : Option String) :
    Option (cJSONv × Nat) × Option String :=
  let r := strtodScan mem off
  if r.2 = 0 then (none, some "Invalid number")
  else (some (.mk cJSON_Number none (dtrunc r.1) r.1 none [], off + r.2), err)

/-- First pass of `parse_string`: scan from `i` (just past the opening
quote) for the closing quote, skipping one extra byte after every backslash
and failing on a NUL byte.  The buffer length is not consulted — the scan
relies on memory being terminated.  Returns the index of the closing
quote. -/
def scanStringEnd (mem : List Char) (i : Nat) : Option Nat :=
  if chAt mem i = '"' then some i
  else if h : chAt mem i = nulc then none
  else if chAt mem i = '\\' then scanStringEnd mem (i + 2)
  else scanStringEnd mem (i + 1)
termination_by mem.length - i
decreasing_by
  all_goals
    have := chAt_lt_length h
    omega

/-- Second pass of `parse_string`: copy bytes from `i` until a quote,
decoding the named escapes; a `\u` escape emits the placeholder `'?'` and
skips six bytes in all (backslash, `u`, four hex digits); any other escaped
byte is copied as itself.  The C loop stops only at a quote; the fuel is the
bound the call site gets from the first pass. -/
def decodeStringBody (mem : List Char) : Nat → Nat → List Char → List Char
  | 0, _, acc => acc.reverse
  | fuel + 1, i, acc =>
    let c := chAt mem i
    if c = '"' then acc.reverse
    else if c = '\\' then
      let e := chAt mem (i + 1)
      if e = 'b' then decodeStringBody mem fuel (i + 2) (Char.ofNat 8 :: acc)
      else if e = 'f' then decodeStringBody mem fuel (i + 2) (Char.ofNat 12 :: acc)
      else if e = 'n' then decodeStringBody mem fuel (i + 2) (Char.ofNat 10 :: acc)
      else if e = 'r' then decodeStringBody mem fuel (i + 2) (Char.ofNat 13 :: acc)
      else if e = 't' then decodeStringBody mem fuel (i + 2) (Char.ofNat 9 :: acc)
      else if e = 'u' then decodeStringBody mem fuel (i + 6) ('?' :: acc)
      else decodeStringBody mem fuel (i + 2) (e :: acc)
    else decodeStringBody mem fuel (i + 1) (c :: acc)

/-- Model of `parse_string`: an opening quote, the first-pass scan for the
closing quote, then the second-pass copy with escape decoding.  Returns the
decoded text together with the offset just past the closing quote; the
caller stores the text (`parse_value` as the `valuestring` of a String node,
`parse_object` as the member key, matching the C code's field moves). -/
def parse_string (mem : List Char) (off : Nat) (err : Option String) :
    Option (List Char × Nat) × Option String :=
  if chAt mem off ≠ '"' then (none, some "Not a string")
  else
    match scanStringEnd mem (off + 1) with
    | none => (none, some "Unterminated string")
    | some qi =>
      (some (decodeStringBody mem (qi + 1 - off) (off + 1) [], qi + 1), err)

mutual

/-- Model of `parse_value`: skip whitespace, require a readable byte, then
dispatch: the three literals by `strncmp` under `can_read`, `"` to the
string rule, `-` or a digit to the number rule, `[` and `{` to the
compounds; anything else is a hard failure.  The fuel argument bounds the
mutual recursion depth; every recursive call decreases it. -/
def parse_value : Nat → List Char → Nat → Nat → Option String →
    Option (cJSONv × Nat) × Option String
  | 0, _, _, _, err => (none, err)
  | fuel + 1, mem, len, off0, err =>
    let off := skip_whitespace mem len off0
    if ¬ off < len then (none, some "Unexpected end")
    else if off + 4 ≤ len ∧ strncmp0 mem off ("null".toList) then
      (some (.mk cJSON_NULL none 0 (.finite 0 1) none [], off + 4), err)
    else if off + 5 ≤ len ∧ strncmp0 mem off ("false".toList) then
      (some (.mk cJSON_False none 0 (.finite 0 1) none [], off + 5), err)
    else if off + 4 ≤ len ∧ strncmp0 mem off ("true".toList) then
      (some (.mk cJSON_True none 0 (.finite 0 1) none [], off + 4), err)
    else if chAt mem off = '"' then
      match parse_string mem off err with
      | (none, e) => (none, e)
      | (some (s, off1), e) =>
        (some (.mk cJSON_String (some s) 0 (.finite 0 1) none [], off1), e)
    else if chAt mem off = '-' ∨ isDigitCh (chAt mem off) then
      parse_number mem off err
    else if chAt mem off = '[' then parse_array fuel mem len off err
    else if chAt mem off = '{' then parse_object fuel mem len off err
    else (none, some "Invalid value")

/-- Model of `parse_array`: consume `[`, skip whitespace; an immediate `]`
(under `can_access`) yields an empty array; otherwise run the member loop
and require `]` (read without a bounds check, as in the C source). -/
def parse_array : Nat → List Char → Nat → Nat → Option String →
    Option (cJSONv × Nat) × Option String
  | 0, _, _, _, err => (none, err)
  | fuel + 1, mem, len, off0, err =>
    if chAt mem off0 ≠ '[' then (none, some "Not an array")
    else
      let off := skip_whitespace mem len (off0 + 1)
      if off < len ∧ chAt mem off = ']' then
        (some (.mk cJSON_Array none 0 (.finite 0 1) none [], off + 1), err)
      else
        match parse_items fuel mem len off [] err with
        | (none, e) => (none, e)
        | (some (elems, off1), e) =>
          if chAt mem off1 ≠ ']' then (none, some "Expected close bracket")
          else (some (.mk cJSON_Array none 0 (.finite 0 1) none elems, off1 + 1), e)

/-- The element loop of `parse_array` (`do { ... } while` over `,`): parse a
value, then continue on a comma read under `can_access`. -/
def parse_items : Nat → List Char → Nat → Nat → List cJSONv → Option String →
    Option (List cJSONv × Nat) × Option String
  | 0, _, _, _, _, err => (none, err)
  | fuel + 1, mem, len, off0, acc, err =>
    let off := skip_whitespace mem len off0
    match parse_value fuel mem len off err with
    | (none, e) => (none, e)
    | (some (item, off1), e) =>
      let off2 := skip_whitespace mem len off1
      if off2 < len ∧ chAt mem off2 = ',' then
        parse_items fuel mem len (off2 + 1) (acc ++ [item]) e
      else (some (acc ++ [item], off2), e)

/-- Model of `parse_object`: consume `{`, skip whitespace; an immediate `}`
(under `can_access`) yields an empty object; otherwise run the member loop
and require `}` (read without a bounds check, as in the C source). -/
def parse_object : Nat → List Char → Nat → Nat → Option String →
    Option (cJSONv × Nat) × Option String
  | 0, _, _, _, err => (none, err)
  | fuel + 1, mem, len, off0, err =>
    if chAt mem off0 ≠ '{' then (none, some "Not an object")
    else
      let off := skip_whitespace mem len (off0 + 1)
      if off < len ∧ chAt mem off = '}' then
        (some (.mk cJSON_Object none 0 (.finite 0 1) none [], off + 1), err)
      else
        match parse_members fuel mem len off [] err with
        | (none, e) => (none, e)
        | (some (mems, off1), e) =>
          if chAt mem off1 ≠ '}' then (none, some "Expected close brace")
          else (some (.mk cJSON_Object none 0 (.finite 0 1) none mems, off1 + 1), e)

/-- The member loop of `parse_object`: parse a key with the string rule,
require `:` , parse the value, store the key on the member node, and
continue on a comma read under `can_access`. -/
def parse_members : Nat → List Char → Nat → Nat → List cJSONv → Option String →
    Option (List cJSONv × Nat) × Option String
  | 0, _, _, _, _, err => (none, err)
  | fuel + 1, mem, len, off0, acc, err =>
    let off := skip_whitespace mem len off0
    match parse_string mem off err with
    | (none, e) => (none, e)
    | (some (key, off1), e) =>
      let off2 := skip_whitespace mem len off1
      if chAt mem off2 ≠ ':' then (none, some "Expected colon")
      else
        let off3 := skip_whitespace mem len (off2 + 1)
        match parse_value fuel mem len off3 e with
        | (none, e2) => (none, e2)
        | (some (item, off4), e2) =>
          let off5 := skip_whitespace mem len off4
          if off5 < len ∧ chAt mem off5 = ',' then
            parse_members fuel mem len (off5 + 1) (acc ++ [item.withKey (some key)]) e2
          else (some (acc ++ [item.withKey (some key)], off5), e2)

end

/-- Fuel for the public parse entry points.  The C recursion depth is
bounded by three frames (value, compound, loop) per consumed byte;
`3 * len + 8` dominates it, and any fuel at least `needFuel` of the value at
hand gives the same result. -/
def parse_fuel (len : Nat) : Nat := 3 * len + 8

/-- Model of `cJSON_ParseWithLength`.  `prevErr` is the process-wide error
slot as the call finds it; the function clears it (`global_error = NULL`)
before any other work, so its result never depends on `prevErr`.  A NULL or
empty buffer fails; otherwise the result of `parse_value` from offset zero
is the returned tree (on a failing `parse_value` the partial item is freed
and NULL returned: there is no partial-result mode). -/
def cJSON_ParseWithLength (prevErr : Option String) (value : Option (List Char))
    (len : Nat) : Option cJSONv × Option String :=
  let _ := prevErr
  match value with
  | none => (none, some "Null input")
  | some mem =>
    if len = 0 then (none, some "Null input")
    else
      match parse_value (parse_fuel len) mem len 0 none with
      | (none, e) => (none, e)
      | (some (item, _), e) => (some item, e)

/-- Model of `cJSON_Parse`: `cJSON_ParseWithLength(value, strlen(value))`,
with `strlen` replaced by 0 for a NULL argument, as in the C source. -/
def cJSON_Parse (prevErr : Option String) (value : Option (List Char)) :
    Option cJSONv × Option String :=
  cJSON_ParseWithLength prevErr value
    (match value with
     | none => 0
     | some s => cstrlen s)

/-- The process-wide error slot read by `cJSON_GetErrorPtr`: the second
component of the parse result models the slot's value after the call. -/
def cJSON_GetErrorPtr (state : Option cJSONv × Option String) : Option String :=
  state.2

/-! ## Round-trip apparatus: builder shapes and structural equality -/

/-- Characters allowed in the strings of round-trip trees: bytes at least 32
(and below 256), or one of the five control characters with short escapes.
Any other byte below 32 would serialize as a `\u00XX` escape, whose parse is
the placeholder — exactly the strings the round-trip claim excludes — and a
NUL byte cannot occur inside a C string at all. -/
def goodChar (c : Char) : Bool :=
  (32 ≤ c.toNat && c.toNat < 256) || c.toNat = 8 || c.toNat = 12 || c.toNat = 10 ||
    c.toNat = 13 || c.toNat = 9

def goodString (s : List Char) : Bool := s.all goodChar

/-- Bounds of the C `int` type. -/
def intMin : Int := -(2 ^ 31)

def intMax : Int := 2 ^ 31 - 1

mutual

/-- Shape of a node built purely from the Builder API, in value position
(the key slot is checked by the surrounding child-list predicate).
`allowCS` tells whether the node may carry the `cJSON_StringIsConst` flag,
which is set exactly on object members attached through
`cJSON_AddItemToObjectCS`.  Strings must be present (non-NULL) and hold only
`goodChar` bytes; numbers are finite with a positive denominator and an
`(int)` view in range (an out-of-range cast is undefined behaviour in C);
Raw nodes are excluded (they do not survive the round trip — see the C1
counterexample); the remaining fields are as `cJSON_New_Item` zeroes them. -/
def goodVal : Bool → cJSONv → Bool
  | allowCS, .mk ty vs vi vd _key ch =>
    let okTy := fun k : Nat =>
      ty = k || (allowCS && ty = (k ||| cJSON_StringIsConst))
    ((okTy cJSON_NULL || okTy cJSON_True || okTy cJSON_False) && vs.isNone &&
        decide (vi = 0) && decide (vd = .finite 0 1) && ch.isEmpty) ||
    (okTy cJSON_Number && vs.isNone && ch.isEmpty &&
        (match vd with
         | .finite n d =>
           decide (0 < d) && decide (vi = Int.tdiv n d) &&
             decide (intMin ≤ vi) && decide (vi ≤ intMax)
         | _ => false)) ||
    (okTy cJSON_String && decide (vi = 0) && decide (vd = .finite 0 1) && ch.isEmpty &&
        (match vs with
         | some s => goodString s
         | none => false)) ||
    (okTy cJSON_Array && vs.isNone && decide (vi = 0) && decide (vd = .finite 0 1) &&
        goodElems ch) ||
    (okTy cJSON_Object && vs.isNone && decide (vi = 0) && decide (vd = .finite 0 1) &&
        goodMembers ch)

/-- Children of a Builder-API array: keyless good values. -/
def goodElems : List cJSONv → Bool
  | [] => true
  | t :: ts => t.string.isNone && goodVal false t && goodElems ts

/-- Children of a Builder-API object: members with present good keys. -/
def goodMembers : List cJSONv → Bool
  | [] => true
  | t :: ts =>
    (match t.string with
     | some k => goodString k
     | none => false) && goodVal true t && goodMembers ts

end

/-- A complete Builder-API tree at the root: no key, good value shape. -/
def goodTree (t : cJSONv) : Bool := t.string.isNone && goodVal false t

mutual

/-- Structural equality in the sense of the round-trip claim: same kind
(`type & 0xFF`), same key, equal strings on String/Raw nodes, equal value
(both the double and its `int` view) on a Number node whose stored double
equals its truncated-integer view, and children pairwise equal in the same
order. -/
def structEq : cJSONv → cJSONv → Bool
  | .mk ty vs vi vd key ch, .mk ty2 vs2 vi2 vd2 key2 ch2 =>
    decide (ty &&& 0xFF = ty2 &&& 0xFF) && decide (key = key2) &&
    (if ty &&& 0xFF = cJSON_String ∨ ty &&& 0xFF = cJSON_Raw then decide (vs = vs2)
     else true) &&
    (if ty &&& 0xFF = cJSON_Number ∧ dEqInt vd vi then dEq vd vd2 && decide (vi = vi2)
     else true) &&
    structEqList ch ch2

def structEqList : List cJSONv → List cJSONv → Bool
  | [], [] => true
  | a :: as, b :: bs => structEq a b && structEqList as bs
  | _, _ => false

end

/-! ## Claims -/

/-- C3 counterexample: `cJSON_IsInvalid` applied to a NULL reference returns
true, not false as the claim states — its body is `!item || (item->type &
0xFF) == cJSON_Invalid`, so the NULL case short-circuits to true, unlike the
other nine predicates, which all test `item && ...`. -/
theorem isInvalid_of_null_is_true : cJSON_IsInvalid none = true := rfl

/-- C3 (amended): every kind predicate except `cJSON_IsInvalid` returns
false on a NULL reference, without failing; `cJSON_IsInvalid` instead
returns true on a NULL reference (it treats an absent value as invalid). -/
theorem kind_predicates_on_null :
    cJSON_IsFalse none = false ∧ cJSON_IsTrue none = false ∧
    cJSON_IsBool none = false ∧ cJSON_IsNull none = false ∧
    cJSON_IsNumber none = false ∧ cJSON_IsString none = false ∧
    cJSON_IsArray none = false ∧ cJSON_IsObject none = false ∧
    cJSON_IsRaw none = false ∧ cJSON_IsInvalid none = true :=
  ⟨rfl, rfl, rfl, rfl, rfl, rfl, rfl, rfl, rfl, rfl⟩

/-- C10: `cJSON_CreateString(NULL)` succeeds rather than failing — it
returns a String-kind node whose `valuestring` is NULL — and serializing
that node prints the empty JSON string `""` (`print_string_ptr` substitutes
the empty string for a NULL pointer). -/
theorem createString_null_prints_empty :
    cJSON_CreateString none = .mk cJSON_String none 0 (.finite 0 1) none [] ∧
    cJSON_IsString (some (cJSON_CreateString none)) = true ∧
    (cJSON_CreateString none).valuestring = none ∧
    cJSON_PrintUnformatted (some (cJSON_CreateString none)) = some ['"', '"'] := by
  refine ⟨rfl, by decide, rfl, ?_⟩
  simp +decide [cJSON_PrintUnformatted, cJSON_CreateString, print_value, print_string_ptr,
    escBody, cJSON_String, cJSON_NULL, cJSON_False, cJSON_True, cJSON_Number, cJSON_Raw]

/-- C2 (code bug): the string copies made by `cJSON_CreateString` and by
`add_item_to_object` (owned-key case) are allocated by libc `strdup` — a
direct `malloc` — not by the installed `global_malloc` hook; only the node
itself goes through the hook registry.  (`cJSON_Delete` later releases those
same strings through `global_free`, so an installed custom pair frees memory
it never allocated.)  The traces list the allocator used at each allocation
site of the two operations. -/
theorem createString_allocs_bypass_hooks :
    cJSON_CreateString_allocs (some ['a']) = [.hooked, .libc] ∧
    AllocSource.libc ∈ cJSON_CreateString_allocs (some ['a']) ∧
    add_item_to_object_allocs false = [.libc] ∧
    AllocSource.libc ∈ add_item_to_object_allocs false := by
  refine ⟨rfl, by decide, rfl, by decide⟩

/-- C4 (code bug): `cJSON_ParseWithLength` does not confine its reads to
offsets below the given length: with buffer contents `"12"` and length 1 the
number scan (`strtod` over a NUL-terminated view) consumes the byte at
offset 1 as well, so two buffers that agree on every byte below the length
parse to different trees. -/
theorem parse_reads_past_length :
    List.take 1 ['1', '2'] = List.take 1 ['1', '3'] ∧
    (cJSON_ParseWithLength none (some ['1', '2']) 1).1 =
      some (.mk cJSON_Number none 12 (.finite 12 1) none []) ∧
    (cJSON_ParseWithLength none (some ['1', '3']) 1).1 =
      some (.mk cJSON_Number none 13 (.finite 13 1) none []) := by
  refine ⟨rfl, ?_, ?_⟩ <;>
    simp +decide [cJSON_ParseWithLength, parse_fuel, parse_value, parse_number, strtodScan,
      scanDigits, skip_whitespace, chAt, strncmp0, isDigitCh, nulc, dtrunc, cJSON_Number,
      List.getD]

/-- C5: a structural violation fails the whole parse with a NULL tree and no
partial result: whenever the top-level `parse_value` fails,
`cJSON_ParseWithLength` returns NULL (the partially built item is freed); in
particular the parses of `{"a":}` (missing value after the colon) and of
`[1,2,` (missing element and close bracket) both return NULL. -/
theorem structural_violation_parse_fails :
    (cJSON_Parse none (some ['{', '"', 'a', '"', ':', '}'])).1 = none ∧
    (cJSON_Parse none (some ['[', '1', ',', '2', ','])).1 = none ∧
    (∀ (prevErr : Option String) (mem : List Char) (len : Nat) (e : Option String),
      parse_value (parse_fuel len) mem len 0 none = (none, e) →
      (cJSON_ParseWithLength prevErr (some mem) len).1 = none) := by
  refine ⟨?_, ?_, ?_⟩
  · simp +decide [cJSON_Parse, cJSON_ParseWithLength, cstrlen, parse_fuel, parse_value,
      parse_object, parse_members, parse_string, scanStringEnd, decodeStringBody,
      skip_whitespace, chAt, strncmp0, nulc, isDigitCh, List.getD]
  · simp +decide [cJSON_Parse, cJSON_ParseWithLength, cstrlen, parse_fuel, parse_value,
      parse_array, parse_items, parse_number, strtodScan, scanDigits, skip_whitespace,
      chAt, strncmp0, nulc, isDigitCh, List.getD]
  · intro prevErr mem len e h
    by_cases hlen : len = 0
    · simp [cJSON_ParseWithLength, hlen]
    · simp [cJSON_ParseWithLength, hlen, h]

/-- C5 witness: the generic no-partial-result conjunct applied at the
concrete failing input `[1,2,` of length 5. -/
theorem structural_violation_parse_fails_witness :
    (cJSON_ParseWithLength none (some ['[', '1', ',', '2', ',']) 5).1 = none := by
  have h := structural_violation_parse_fails
  refine h.2.2 none ['[', '1', ',', '2', ','] 5
    (parse_value (parse_fuel 5) ['[', '1', ',', '2', ','] 5 0 none).2 ?_
  simp +decide [parse_fuel, parse_value, parse_array, parse_items, parse_number, strtodScan,
    scanDigits, skip_whitespace, chAt, strncmp0, nulc, isDigitCh, List.getD]

/-- C6: a `\u` escape is never decoded to its code point: the second pass of
`parse_string` emits exactly one placeholder character `'?'` and skips the
four hex digits (six bytes counting the backslash and the `u`); in
particular parsing the text `"A"` yields the one-character string `?`,
not `A`. -/
theorem unicode_escape_placeholder :
    (∀ (mem : List Char) (fuel i : Nat) (acc : List Char),
      chAt mem i = '\\' → chAt mem (i + 1) = 'u' →
      decodeStringBody mem (fuel + 1) i acc = decodeStringBody mem fuel (i + 6) ('?' :: acc)) ∧
    (cJSON_Parse none (some ['"', '\\', 'u', '0', '0', '4', '1', '"'])).1 =
      some (.mk cJSON_String (some ['?']) 0 (.finite 0 1) none []) ∧
    List.length ['?'] = 1 ∧ ('?' : Char) ≠ 'A' := by
  refine ⟨?_, ?_, rfl, by decide⟩
  · intro mem fuel i acc h1 h2
    simp +decide [decodeStringBody, h1, h2]
  · simp +decide [cJSON_Parse, cJSON_ParseWithLength, cstrlen, parse_fuel, parse_value,
      parse_string, scanStringEnd, decodeStringBody, skip_whitespace, chAt, strncmp0, nulc,
      isDigitCh, cJSON_String, List.getD]

/-- C6 witness: the placeholder step applied at a concrete memory holding
`A`, discharging both byte hypotheses. -/
theorem unicode_escape_placeholder_witness :
    decodeStringBody ['\\', 'u', '0', '0', '4', '1'] 7 0 [] =
      decodeStringBody ['\\', 'u', '0', '0', '4', '1'] 6 6 ['?'] := by
  exact unicode_escape_placeholder.1 ['\\', 'u', '0', '0', '4', '1'] 6 0 []
    (by decide) (by decide)

/-- C7: both object lookups return the first matching member in sibling
order — the walk over the children equals `List.find?` of the match
predicate (case-insensitive `strcasecmp` for `cJSON_GetObjectItem`, exact
`strcmp` for `cJSON_GetObjectItemCaseSensitive`), and is NULL exactly when
no member matches; on the parse of `{"a":1,"a":2}` both lookups of `"a"`
return the first member, the one with value 1, and both lookups of an
absent key return NULL. -/
theorem object_lookup_first_match :
    (∀ (k : List Char) (cs : List cJSONv),
      getObjectItem_walk k cs =
        cs.find? (fun c =>
          match c.string with
          | some s => strcaseeq s k
          | none => false) ∧
      getObjectItemCS_walk k cs =
        cs.find? (fun c =>
          match c.string with
          | some s => decide (s = k)
          | none => false)) ∧
    (cJSON_GetObjectItem
        (cJSON_Parse none
          (some ['{', '"', 'a', '"', ':', '1', ',', '"', 'a', '"', ':', '2', '}'])).1
        (some ['a']) =
      some (.mk cJSON_Number none 1 (.finite 1 1) (some ['a']) []) ∧
     cJSON_GetObjectItemCaseSensitive
        (cJSON_Parse none
          (some ['{', '"', 'a', '"', ':', '1', ',', '"', 'a', '"', ':', '2', '}'])).1
        (some ['a']) =
      some (.mk cJSON_Number none 1 (.finite 1 1) (some ['a']) []) ∧
     cJSON_GetObjectItem
        (cJSON_Parse none
          (some ['{', '"', 'a', '"', ':', '1', ',', '"', 'a', '"', ':', '2', '}'])).1
        (some ['b']) = none ∧
     cJSON_GetObjectItemCaseSensitive
        (cJSON_Parse none
          (some ['{', '"', 'a', '"', ':', '1', ',', '"', 'a', '"', ':', '2', '}'])).1
        (some ['b']) = none) := by
  constructor
  · intro k cs
    constructor
    · induction cs with
      | nil => rfl
      | cons c cs ih =>
        cases hc : c.string with
        | none => simp [getObjectItem_walk, hc, ih]
        | some s =>
          by_cases hs : strcaseeq s k = true <;>
            simp [getObjectItem_walk, hc, hs, ih]
    · induction cs with
      | nil => rfl
      | cons c cs ih =>
        cases hc : c.string with
        | none => simp [getObjectItemCS_walk, hc, ih]
        | some s =>
          by_cases hs : s = k <;> simp [getObjectItemCS_walk, hc, hs, ih]
  · have hp : (cJSON_Parse none
        (some ['{', '"', 'a', '"', ':', '1', ',', '"', 'a', '"', ':', '2', '}'])).1 =
        some (.mk cJSON_Object none 0 (.finite 0 1) none
          [.mk cJSON_Number none 1 (.finite 1 1) (some ['a']) [],
           .mk cJSON_Number none 2 (.finite 2 1) (some ['a']) []]) := by
      simp +decide [cJSON_Parse, cJSON_ParseWithLength, cstrlen, parse_fuel, parse_value,
        parse_object, parse_members, parse_string, scanStringEnd, decodeStringBody,
        parse_number, strtodScan, scanDigits, skip_whitespace, chAt, strncmp0, nulc,
        isDigitCh, dtrunc, cJSON_Number, cJSON_Object, cJSONv.withKey, List.getD]
    rw [hp]
    refine ⟨?_, ?_, ?_, ?_⟩ <;>
      simp +decide [cJSON_GetObjectItem, cJSON_GetObjectItemCaseSensitive, cJSONv.child,
        getObjectItem_walk, getObjectItemCS_walk, cJSONv.string, strcaseeq, asciiLower]

/-- C8: `print_number` prints `null` for NaN and for both infinities; it
prints the `%d` integer form exactly when the stored double compares equal
to its truncated-integer view (the `valueint` field, which
`cJSON_CreateNumber` derives by truncation at creation); otherwise it prints
the `%g` fractional form — so a node created from `3.0` serializes as `3`,
and a node created from `3.5` serializes as `3.5`, not truncated to `3`. -/
theorem print_number_formatting :
    (∀ (num : CDouble), (cJSON_CreateNumber num).valueint = dtrunc num) ∧
    (∀ (n d i : Int), dEqInt (.finite n d) i = true →
      print_number (.mk cJSON_Number none i (.finite n d) none []) = sprintf_d i) ∧
    (∀ (n d i : Int), dEqInt (.finite n d) i = false →
      print_number (.mk cJSON_Number none i (.finite n d) none []) = fmtG n d) ∧
    print_number (cJSON_CreateNumber (.finite 3 1)) = ['3'] ∧
    print_number (cJSON_CreateNumber (.finite 7 2)) = ['3', '.', '5'] ∧
    print_number (cJSON_CreateNumber .nan) = "null".toList ∧
    print_number (cJSON_CreateNumber (.inf false)) = "null".toList ∧
    print_number (cJSON_CreateNumber (.inf true)) = "null".toList := by
  refine ⟨fun num => rfl, ?_, ?_, ?_, ?_, rfl, rfl, rfl⟩
  · intro n d i h
    simp [print_number, cJSONv.valuedouble, cJSONv.valueint, h]
  · intro n d i h
    simp [print_number, cJSONv.valuedouble, cJSONv.valueint, h]
  · simp +decide [print_number, cJSON_CreateNumber, cJSONv.valuedouble, cJSONv.valueint,
      dtrunc, dEqInt, dEq, sprintf_d, natDecDigits, decDigitsGo, digitCh]
  · simp +decide [print_number, cJSON_CreateNumber, cJSONv.valuedouble, cJSONv.valueint,
      dtrunc, dEqInt, dEq, fmtG, natDecDigits, decDigitsGo, fracDigits, digitCh]

/-- C8 witness: the integer branch applied at the double `3/1` with `int`
view `3`, and the fractional branch applied at `7/2` with `int` view `3`,
both hypotheses discharged by computation. -/
theorem print_number_formatting_witness :
    print_number (.mk cJSON_Number none 3 (.finite 3 1) none []) = sprintf_d 3 ∧
    print_number (.mk cJSON_Number none 3 (.finite 7 2) none []) = fmtG 7 2 := by
  exact ⟨print_number_formatting.2.1 3 1 3 (by decide),
    print_number_formatting.2.2.1 7 2 3 (by decide)⟩

/-- Helper: a successful `parse_string` returns the error slot it was
given (the slot is written only on failing paths). -/
theorem parse_string_success_err {mem : List Char} {off : Nat}
    {err e : Option String} {s : List Char} {o : Nat}
    (h : parse_string mem off err = (some (s, o), e)) : e = err := by
  unfold parse_string at h
  split at h
  · exact absurd (congrArg Prod.fst h) (by simp)
  · split at h
    · exact absurd (congrArg Prod.fst h) (by simp)
    · exact (congrArg Prod.snd h).symm

/-- Helper: a successful `parse_number` returns the error slot it was
given. -/
theorem parse_number_success_err {mem : List Char} {off : Nat}
    {err e : Option String} {v : cJSONv} {o : Nat}
    (h : parse_number mem off err = (some (v, o), e)) : e = err := by
  simp only [parse_number] at h
  split at h
  · exact absurd (congrArg Prod.fst h) (by simp)
  · exact (congrArg Prod.snd h).symm

/-- Helper: successful parses leave the error slot untouched, for all five
mutually recursive parse functions at every fuel. -/
theorem parse_ok_err_unchanged (fuel : Nat) :
    (∀ mem len off err v o e,
      parse_value fuel mem len off err = (some (v, o), e) → e = err) ∧
    (∀ mem len off err v o e,
      parse_array fuel mem len off err = (some (v, o), e) → e = err) ∧
    (∀ mem len off err v o e,
      parse_object fuel mem len off err = (some (v, o), e) → e = err) ∧
    (∀ mem len off acc err v o e,
      parse_items fuel mem len off acc err = (some (v, o), e) → e = err) ∧
    (∀ mem len off acc err v o e,
      parse_members fuel mem len off acc err = (some (v, o), e) → e = err) := by
  induction fuel with
  | zero =>
    refine ⟨?_, ?_, ?_, ?_, ?_⟩
    · intro mem len off err v o e h
      exact absurd (congrArg Prod.fst h) (by simp [parse_value])
    · intro mem len off err v o e h
      exact absurd (congrArg Prod.fst h) (by simp [parse_array])
    · intro mem len off err v o e h
      exact absurd (congrArg Prod.fst h) (by simp [parse_object])
    · intro mem len off acc err v o e h
      exact absurd (congrArg Prod.fst h) (by simp [parse_items])
    · intro mem len off acc err v o e h
      exact absurd (congrArg Prod.fst h) (by simp [parse_members])
  | succ fuel ih =>
    obtain ⟨ihv, iha, iho, ihi, ihm⟩ := ih
    refine ⟨?_, ?_, ?_, ?_, ?_⟩
    · intro mem len off err v o e h
      simp only [parse_value] at h
      split at h
      · exact absurd (congrArg Prod.fst h) (by simp)
      · split at h
        · exact (congrArg Prod.snd h).symm
        · split at h
          · exact (congrArg Prod.snd h).symm
          · split at h
            · exact (congrArg Prod.snd h).symm
            · split at h
              · split at h
                · exact absurd (congrArg Prod.fst h) (by simp)
                · rename_i heq
                  exact (congrArg Prod.snd h).symm.trans (parse_string_success_err heq)
              · split at h
                · exact parse_number_success_err h
                · split at h
                  · exact iha _ _ _ _ _ _ _ h
                  · split at h
                    · exact iho _ _ _ _ _ _ _ h
                    · exact absurd (congrArg Prod.fst h) (by simp)
    · intro mem len off err v o e h
      simp only [parse_array] at h
      split at h
      · exact absurd (congrArg Prod.fst h) (by simp)
      · split at h
        · exact (congrArg Prod.snd h).symm
        · split at h
          · exact absurd (congrArg Prod.fst h) (by simp)
          · rename_i heq
            split at h
            · exact absurd (congrArg Prod.fst h) (by simp)
            · exact (congrArg Prod.snd h).symm.trans (ihi _ _ _ _ _ _ _ _ heq)
    · intro mem len off err v o e h
      simp only [parse_object] at h
      split at h
      · exact absurd (congrArg Prod.fst h) (by simp)
      · split at h
        · exact (congrArg Prod.snd h).symm
        · split at h
          · exact absurd (congrArg Prod.fst h) (by simp)
          · rename_i heq
            split at h
            · exact absurd (congrArg Prod.fst h) (by simp)
            · exact (congrArg Prod.snd h).symm.trans (ihm _ _ _ _ _ _ _ _ heq)
    · intro mem len off acc err v o e h
      simp only [parse_items] at h
      split at h
      · exact absurd (congrArg Prod.fst h) (by simp)
      · rename_i heq
        split at h
        · exact (ihi _ _ _ _ _ _ _ _ h).trans (ihv _ _ _ _ _ _ _ heq)
        · exact (congrArg Prod.snd h).symm.trans (ihv _ _ _ _ _ _ _ heq)
    · intro mem len off acc err v o e h
      simp only [parse_members] at h
      split at h
      · exact absurd (congrArg Prod.fst h) (by simp)
      · rename_i heq
        split at h
        · exact absurd (congrArg Prod.fst h) (by simp)
        · split at h
          · exact absurd (congrArg Prod.fst h) (by simp)
          · rename_i heq2
            split at h
            · exact ((ihm _ _ _ _ _ _ _ _ h).trans
                (ihv _ _ _ _ _ _ _ heq2)).trans (parse_string_success_err heq)
            · exact (((congrArg Prod.snd h).symm).trans
                (ihv _ _ _ _ _ _ _ heq2)).trans (parse_string_success_err heq)

/-- C9: `cJSON_ParseWithLength` resets the process-wide error slot before
doing any parsing work — its outcome is independent of the slot's previous
value — and any call that returns a non-null tree leaves the slot null, so
`cJSON_GetErrorPtr` never reports the error of an earlier failed call once a
later call has succeeded. -/
theorem parse_success_clears_error
    (prevErr prevErr2 : Option String) (value : Option (List Char)) (len : Nat) :
    cJSON_ParseWithLength prevErr value len = cJSON_ParseWithLength prevErr2 value len ∧
    (∀ t e, cJSON_ParseWithLength prevErr value len = (some t, e) →
      cJSON_GetErrorPtr (cJSON_ParseWithLength prevErr value len) = none) := by
  refine ⟨rfl, ?_⟩
  intro t e h
  have hen : e = none := by
    cases value with
    | none =>
      exact absurd (congrArg Prod.fst h) (by simp [cJSON_ParseWithLength])
    | some mem =>
      simp only [cJSON_ParseWithLength] at h
      split at h
      · exact absurd (congrArg Prod.fst h) (by simp)
      · split at h
        · exact absurd (congrArg Prod.fst h) (by simp)
        · rename_i heq
          exact ((congrArg Prod.snd h).symm).trans
            ((parse_ok_err_unchanged (parse_fuel len)).1 _ _ _ _ _ _ _ heq)
  rw [h]
  simp [cJSON_GetErrorPtr, hen]

/-- C9 witness: a concrete successful parse (`"1"`, length 1) made after a
failed call left an error in the slot; the error pointer afterwards is
null. -/
theorem parse_success_clears_error_witness :
    cJSON_GetErrorPtr (cJSON_ParseWithLength (some "Invalid value") (some ['1']) 1) = none := by
  refine (parse_success_clears_error (some "Invalid value") none (some ['1']) 1).2
    (.mk cJSON_Number none 1 (.finite 1 1) none []) none ?_
  simp +decide [cJSON_ParseWithLength, parse_fuel, parse_value, parse_number, strtodScan,
    scanDigits, skip_whitespace, chAt, strncmp0, isDigitCh, nulc, dtrunc, cJSON_Number,
    List.getD]

/-! ## Round-trip lemmas: strings -/

mutual

/-- Fuel sufficient for parsing a printed value: three frames per node plus
one per child, computed over the tree. -/
def needFuel : cJSONv → Nat
  | .mk _ _ _ _ _ ch => 3 + needFuelList ch

/-- Fuel for a printed child list. -/
def needFuelList : List cJSONv → Nat
  | [] => 0
  | t :: ts => 1 + needFuel t + needFuelList ts

end

/-- Structural equality of the value parts, keys disregarded. -/
def structEqVal (a b : cJSONv) : Bool := structEq (a.withKey none) (b.withKey none)

theorem structEq_split (a b : cJSONv) :
    structEq a b = (decide (a.string = b.string) && structEqVal a b) := by
  cases a with
  | mk ty vs vi vd key ch =>
    cases b with
    | mk ty2 vs2 vi2 vd2 key2 ch2 =>
      simp only [structEq, structEqVal, cJSONv.withKey, cJSONv.string]
      by_cases hk : key = key2 <;> simp [hk]

/-- The head of what remains after a printed value: a separator, a closing
bracket, a closing brace, or nothing at all. -/
def endish (rest : List Char) : Prop :=
  chAt rest 0 = ']' ∨ chAt rest 0 = '}' ∨ rest = []

def sepish (rest : List Char) : Prop := chAt rest 0 = ',' ∨ endish rest

theorem skip_noop_at_end (mem : List Char) (len off : Nat) (h : len ≤ off) :
    skip_whitespace mem len off = off := by
  unfold skip_whitespace
  rw [if_neg]
  omega

theorem skip_noop_char (mem : List Char) (len off : Nat)
    (h : 32 < (chAt mem off).toNat) : skip_whitespace mem len off = off := by
  unfold skip_whitespace
  rw [if_neg]
  omega

/-- Reading inside the middle section of a three-part memory. -/
theorem chAt_mid (pre l rest : List Char) (k : Nat) (h : k < l.length) :
    chAt (pre ++ (l ++ rest)) (pre.length + k) = chAt l k := by
  rw [chAt_append_right, chAt_append_left _ _ _ h]

/-- A matching literal in the middle of memory satisfies `strncmp0`. -/
theorem strncmp0_self (lit : List Char) :
    ∀ (pre rest : List Char), strncmp0 (pre ++ (lit ++ rest)) pre.length lit = true := by
  induction lit with
  | nil => intro pre rest; rfl
  | cons c cs ih =>
    intro pre rest
    have h0 : chAt (pre ++ ((c :: cs) ++ rest)) pre.length = c := by
      have := chAt_mid pre (c :: cs) rest 0 (by simp)
      simpa using this
    have hrec := ih (pre ++ [c]) rest
    simp only [strncmp0, h0]
    simp only [List.append_assoc, List.cons_append, List.nil_append] at hrec ⊢
    have hlen : pre.length + 1 = (pre ++ [c]).length := by simp
    rw [hlen]
    simpa using hrec

/-- A `strncmp0` against a literal fails when the first bytes differ. -/
theorem strncmp0_head_ne {mem : List Char} {i : Nat} {c : Char} {cs : List Char}
    (h : chAt mem i ≠ c) : strncmp0 mem i (c :: cs) = false := by
  simp [strncmp0, h]

/-- Text without NUL bytes has `strlen` equal to its length. -/
theorem cstrlen_of_no_nul (s : List Char) (h : ∀ c ∈ s, c ≠ nulc) :
    cstrlen s = s.length := by
  induction s with
  | nil => rfl
  | cons c cs ih =>
    have hc : c ≠ nulc := h c (by simp)
    simp [cstrlen, hc, ih (fun x hx => h x (by simp [hx]))]

theorem escChar_length_pos (c : Char) : 1 ≤ (escChar c).length := by
  unfold escChar
  split <;> try simp
  split <;> try simp
  split <;> try simp
  split <;> try simp
  split <;> try simp
  split <;> try simp
  split <;> try simp
  split <;> simp

theorem escBody_length_ge (s : List Char) : s.length ≤ (escBody s).length := by
  induction s with
  | nil => simp [escBody]
  | cons c cs ih =>
    have := escChar_length_pos c
    simp only [escBody, List.length_append, List.length_cons]
    omega

/-- A character is determined by its byte value. -/
theorem char_eq_of_toNat {c : Char} {n : Nat} (hn : (Char.ofNat n).toNat = n)
    (h : c.toNat = n) : c = Char.ofNat n := by
  have h2 : c.val = (Char.ofNat n).val := by
    apply UInt32.toNat.inj
    show c.toNat = (Char.ofNat n).toNat
    rw [h, hn]
  exact Char.eq_of_val_eq h2

/-- Escapes of the characters the goodness predicate admits: the quote, the
backslash and the five named controls take their two-character escapes;
everything else is a plain byte at least 32 copied verbatim. -/
theorem escChar_cases (c : Char) (hc : goodChar c = true) :
    (∃ e : Char, escChar c = ['\\', e] ∧ e ≠ '"' ∧ e ≠ '\\' ∧
      ((e = 'b' ∧ c = Char.ofNat 8) ∨ (e = 'f' ∧ c = Char.ofNat 12) ∨
       (e = 'n' ∧ c = Char.ofNat 10) ∨ (e = 'r' ∧ c = Char.ofNat 13) ∨
       (e = 't' ∧ c = Char.ofNat 9))) ∨
    (escChar c = ['\\', c] ∧ (c = '"' ∨ c = '\\')) ∨
    (escChar c = [c] ∧ 32 ≤ c.toNat ∧ c.toNat < 256 ∧ c ≠ '"' ∧ c ≠ '\\') := by
  by_cases h1 : c = '"'
  · refine Or.inr (Or.inl ⟨?_, Or.inl h1⟩)
    unfold escChar
    rw [if_pos h1, h1]
  by_cases h2 : c = '\\'
  · refine Or.inr (Or.inl ⟨?_, Or.inr h2⟩)
    unfold escChar
    rw [if_neg h1, if_pos h2, h2]
  by_cases h3 : c.toNat = 8
  · refine Or.inl ⟨'b', ?_, by decide, by decide, Or.inl ⟨rfl, ?_⟩⟩
    · unfold escChar
      rw [if_neg h1, if_neg h2, if_pos h3]
    · exact char_eq_of_toNat (by decide) h3
  by_cases h4 : c.toNat = 12
  · refine Or.inl ⟨'f', ?_, by decide, by decide, Or.inr (Or.inl ⟨rfl, ?_⟩)⟩
    · unfold escChar
      rw [if_neg h1, if_neg h2, if_neg h3, if_pos h4]
    · exact char_eq_of_toNat (by decide) h4
  by_cases h5 : c.toNat = 10
  · refine Or.inl ⟨'n', ?_, by decide, by decide, Or.inr (Or.inr (Or.inl ⟨rfl, ?_⟩))⟩
    · unfold escChar
      rw [if_neg h1, if_neg h2, if_neg h3, if_neg h4, if_pos h5]
    · exact char_eq_of_toNat (by decide) h5
  by_cases h6 : c.toNat = 13
  · refine Or.inl ⟨'r', ?_, by decide, by decide, Or.inr (Or.inr (Or.inr (Or.inl ⟨rfl, ?_⟩)))⟩
    · unfold escChar
      rw [if_neg h1, if_neg h2, if_neg h3, if_neg h4, if_neg h5, if_pos h6]
    · exact char_eq_of_toNat (by decide) h6
  by_cases h7 : c.toNat = 9
  · refine Or.inl ⟨'t', ?_, by decide, by decide, Or.inr (Or.inr (Or.inr (Or.inr ⟨rfl, ?_⟩)))⟩
    · unfold escChar
      rw [if_neg h1, if_neg h2, if_neg h3, if_neg h4, if_neg h5, if_neg h6, if_pos h7]
    · exact char_eq_of_toNat (by decide) h7
  · have hrange : 32 ≤ c.toNat ∧ c.toNat < 256 := by
      simp only [goodChar, Bool.or_eq_true, decide_eq_true_eq, Bool.and_eq_true] at hc
      rcases hc with ((((⟨ha, hb⟩ | h) | h) | h) | h) | h <;> omega
    refine Or.inr (Or.inr ⟨?_, hrange.1, hrange.2, h1, h2⟩)
    unfold escChar
    rw [if_neg h1, if_neg h2, if_neg h3, if_neg h4, if_neg h5, if_neg h6, if_neg h7,
      if_neg (by omega)]

/-- The first string pass over a printed good string lands exactly on the
closing quote. -/
theorem scanStringEnd_escBody :
    ∀ (s : List Char), goodString s = true → ∀ (pre rest : List Char),
      scanStringEnd (pre ++ (escBody s ++ ('"' :: rest))) pre.length
        = some (pre.length + (escBody s).length) := by
  intro s
  induction s with
  | nil =>
    intro _ pre rest
    have h0 : chAt (pre ++ (escBody [] ++ ('"' :: rest))) pre.length = '"' := by
      simpa [escBody] using chAt_append_right pre ('"' :: rest) 0
    unfold scanStringEnd
    rw [if_pos h0]
    simp [escBody]
  | cons c cs ih =>
    intro hgood pre rest
    have hgc : goodChar c = true ∧ goodString cs = true := by
      simpa [goodString, List.all_cons] using hgood
    have hlt : 0 < (escChar c ++ escBody cs).length := by
      have := escChar_length_pos c
      simp only [List.length_append]
      omega
    have h0 : chAt (pre ++ (escBody (c :: cs) ++ ('"' :: rest))) pre.length
        = chAt (escChar c ++ escBody cs) 0 := by
      have := chAt_mid pre (escChar c ++ escBody cs) ('"' :: rest) 0 hlt
      simpa [escBody, List.append_assoc] using this
    have ihx := ih hgc.2 (pre ++ escChar c) rest
    have hmem : pre ++ (escBody (c :: cs) ++ ('"' :: rest))
        = (pre ++ escChar c) ++ (escBody cs ++ ('"' :: rest)) := by
      simp only [escBody, List.append_assoc]
    rcases escChar_cases c hgc.1 with ⟨e, hesc, he1, he2, hwhich⟩ | ⟨hesc, hwhich⟩ |
      ⟨hesc, hge, hlt2, hne1, hne2⟩
    · rw [hesc] at h0
      simp only [List.cons_append, List.nil_append, chAt_cons_zero] at h0
      unfold scanStringEnd
      rw [if_neg (by rw [h0]; decide), dif_neg (by rw [h0]; decide), if_pos h0]
      have hoff : pre.length + 2 = (pre ++ escChar c).length := by
        simp [hesc]
      rw [hmem, hoff, ihx]
      simp only [List.length_append, hesc, escBody, List.length_cons, List.length_nil,
        Option.some.injEq]
      omega
    · rw [hesc] at h0
      simp only [List.cons_append, List.nil_append, chAt_cons_zero] at h0
      unfold scanStringEnd
      rw [if_neg (by rw [h0]; decide), dif_neg (by rw [h0]; decide), if_pos h0]
      have hoff : pre.length + 2 = (pre ++ escChar c).length := by
        simp [hesc]
      rw [hmem, hoff, ihx]
      simp only [List.length_append, hesc, escBody, List.length_cons, List.length_nil,
        Option.some.injEq]
      omega
    · rw [hesc] at h0
      simp only [List.cons_append, List.nil_append, chAt_cons_zero] at h0
      have hnnul : c ≠ nulc := by
        intro h
        rw [h] at hge
        simp [nulc] at hge
      unfold scanStringEnd
      rw [if_neg (by rw [h0]; exact hne1), dif_neg (by rw [h0]; exact hnnul),
        if_neg (by rw [h0]; exact hne2)]
      have hoff : pre.length + 1 = (pre ++ escChar c).length := by
        simp [hesc]
      rw [hmem, hoff, ihx]
      simp only [List.length_append, hesc, escBody, List.length_cons, List.length_nil,
        Option.some.injEq]
      omega

/-- The second string pass over a printed good string decodes the escapes
back to the original characters. -/
theorem decodeStringBody_escBody :
    ∀ (s : List Char), goodString s = true → ∀ (pre rest acc : List Char) (fuel : Nat),
      s.length + 1 ≤ fuel →
      decodeStringBody (pre ++ (escBody s ++ ('"' :: rest))) fuel pre.length acc
        = acc.reverse ++ s := by
  intro s
  induction s with
  | nil =>
    intro _ pre rest acc fuel hf
    obtain ⟨f, rfl⟩ : ∃ f, fuel = f + 1 := ⟨fuel - 1, by omega⟩
    have h0 : chAt (pre ++ (escBody [] ++ ('"' :: rest))) pre.length = '"' := by
      simpa [escBody] using chAt_append_right pre ('"' :: rest) 0
    simp only [decodeStringBody, h0]
    simp
  | cons c cs ih =>
    intro hgood pre rest acc fuel hf
    obtain ⟨f, rfl⟩ : ∃ f, fuel = f + 1 := ⟨fuel - 1, by omega⟩
    have hgc : goodChar c = true ∧ goodString cs = true := by
      simpa [goodString, List.all_cons] using hgood
    have hfr : cs.length + 1 ≤ f := by
      simp only [List.length_cons] at hf
      omega
    have ihx := ih hgc.2 (pre ++ escChar c) rest (c :: acc) f hfr
    rcases escChar_cases c hgc.1 with ⟨e, hesc, he1, he2, hwhich⟩ | ⟨hesc, hwhich⟩ |
      ⟨hesc, hge, hlt2, hne1, hne2⟩
    · have hmem2 : pre ++ (escBody (c :: cs) ++ ('"' :: rest))
          = pre ++ (['\\', e] ++ (escBody cs ++ ('"' :: rest))) := by
        simp [escBody, hesc]
      have h0 : chAt (pre ++ (escBody (c :: cs) ++ ('"' :: rest))) pre.length = '\\' := by
        rw [hmem2]
        have := chAt_mid pre ['\\', e] (escBody cs ++ ('"' :: rest)) 0 (by simp)
        simpa using this
      have h1 : chAt (pre ++ (escBody (c :: cs) ++ ('"' :: rest))) (pre.length + 1)
          = e := by
        rw [hmem2]
        have := chAt_mid pre ['\\', e] (escBody cs ++ ('"' :: rest)) 1 (by simp)
        simpa using this
      have hix : decodeStringBody (pre ++ (escBody (c :: cs) ++ ('"' :: rest))) f
          (pre.length + 2) (c :: acc) = (c :: acc).reverse ++ cs := by
        rw [hmem2]
        have harr : pre ++ (['\\', e] ++ (escBody cs ++ ('"' :: rest)))
            = (pre ++ escChar c) ++ (escBody cs ++ ('"' :: rest)) := by
          simp [hesc]
        rw [harr, show pre.length + 2 = (pre ++ escChar c).length by simp [hesc]]
        exact ihx
      rcases hwhich with ⟨he, hc⟩ | ⟨he, hc⟩ | ⟨he, hc⟩ | ⟨he, hc⟩ | ⟨he, hc⟩ <;>
        subst he <;> subst hc <;>
        · simp +decide only [decodeStringBody, h0, h1]
          rw [hix]
          simp
    · have hmem2 : pre ++ (escBody (c :: cs) ++ ('"' :: rest))
          = pre ++ (['\\', c] ++ (escBody cs ++ ('"' :: rest))) := by
        simp [escBody, hesc]
      have h0 : chAt (pre ++ (escBody (c :: cs) ++ ('"' :: rest))) pre.length = '\\' := by
        rw [hmem2]
        have := chAt_mid pre ['\\', c] (escBody cs ++ ('"' :: rest)) 0 (by simp)
        simpa using this
      have h1 : chAt (pre ++ (escBody (c :: cs) ++ ('"' :: rest))) (pre.length + 1)
          = c := by
        rw [hmem2]
        have := chAt_mid pre ['\\', c] (escBody cs ++ ('"' :: rest)) 1 (by simp)
        simpa using this
      have hix : decodeStringBody (pre ++ (escBody (c :: cs) ++ ('"' :: rest))) f
          (pre.length + 2) (c :: acc) = (c :: acc).reverse ++ cs := by
        rw [hmem2]
        have harr : pre ++ (['\\', c] ++ (escBody cs ++ ('"' :: rest)))
            = (pre ++ escChar c) ++ (escBody cs ++ ('"' :: rest)) := by
          simp [hesc]
        rw [harr, show pre.length + 2 = (pre ++ escChar c).length by simp [hesc]]
        exact ihx
      rcases hwhich with hc | hc <;>
        subst hc <;>
        · simp +decide only [decodeStringBody, h0, h1]
          rw [hix]
          simp
    · have hmem2 : pre ++ (escBody (c :: cs) ++ ('"' :: rest))
          = pre ++ ([c] ++ (escBody cs ++ ('"' :: rest))) := by
        simp [escBody, hesc]
      have h0 : chAt (pre ++ (escBody (c :: cs) ++ ('"' :: rest))) pre.length = c := by
        rw [hmem2]
        have := chAt_mid pre [c] (escBody cs ++ ('"' :: rest)) 0 (by simp)
        simpa using this
      have hix : decodeStringBody (pre ++ (escBody (c :: cs) ++ ('"' :: rest))) f
          (pre.length + 1) (c :: acc) = (c :: acc).reverse ++ cs := by
        rw [hmem2]
        have harr : pre ++ ([c] ++ (escBody cs ++ ('"' :: rest)))
            = (pre ++ escChar c) ++ (escBody cs ++ ('"' :: rest)) := by
          simp [hesc]
        rw [harr, show pre.length + 1 = (pre ++ escChar c).length by simp [hesc]]
        exact ihx
      simp only [decodeStringBody, h0]
      rw [if_neg hne1, if_neg hne2, hix]
      simp

/-- Parsing a printed good string succeeds, recovers the original
characters, and consumes exactly the printed text. -/
theorem parse_string_print (s : List Char) (hs : goodString s = true)
    (pre rest : List Char) (err : Option String) :
    parse_string (pre ++ (print_string_ptr (some s) ++ rest)) pre.length err
      = (some (s, pre.length + (print_string_ptr (some s)).length), err) := by
  have hshape : print_string_ptr (some s) ++ rest
      = '"' :: (escBody s ++ ('"' :: rest)) := by
    simp [print_string_ptr]
  have h0 : chAt (pre ++ (print_string_ptr (some s) ++ rest)) pre.length = '"' := by
    rw [hshape]
    have := chAt_mid pre ['"'] (escBody s ++ ('"' :: rest)) 0 (by simp)
    simpa using this
  have hscan : scanStringEnd (pre ++ (print_string_ptr (some s) ++ rest))
      (pre.length + 1) = some (pre.length + 1 + (escBody s).length) := by
    rw [hshape]
    have harr : pre ++ ('"' :: (escBody s ++ ('"' :: rest)))
        = (pre ++ ['"']) ++ (escBody s ++ ('"' :: rest)) := by
      simp
    rw [harr, show pre.length + 1 = (pre ++ ['"']).length by simp]
    exact scanStringEnd_escBody s hs (pre ++ ['"']) rest
  have hdec : decodeStringBody (pre ++ (print_string_ptr (some s) ++ rest))
      (pre.length + 1 + (escBody s).length + 1 - pre.length) (pre.length + 1) []
      = s := by
    rw [hshape]
    have harr : pre ++ ('"' :: (escBody s ++ ('"' :: rest)))
        = (pre ++ ['"']) ++ (escBody s ++ ('"' :: rest)) := by
      simp
    rw [harr, show pre.length + 1 = (pre ++ ['"']).length by simp]
    have hfuel : s.length + 1 ≤ pre.length + 1 + (escBody s).length + 1 - pre.length := by
      have := escBody_length_ge s
      omega
    simpa using decodeStringBody_escBody s hs (pre ++ ['"']) rest [] _ hfuel
  unfold parse_string
  rw [if_neg (by rw [h0]; simp), hscan]
  dsimp only
  rw [hdec]
  have hlen : (print_string_ptr (some s)).length = (escBody s).length + 2 := by
    simp [print_string_ptr]
  simp only [Prod.mk.injEq, Option.some.injEq, hlen, and_true, true_and]
  omega

/-! ## Round-trip lemmas: numbers -/

theorem toNat_ofNat_small (n : Nat) (h : n < 55296) : (Char.ofNat n).toNat = n := by
  have hv : n.isValidChar := Or.inl h
  simp [Char.ofNat, Char.ofNatAux, Char.toNat, dif_pos hv]
  rfl

theorem digitCh_toNat (k : Nat) (h : k < 10) : (digitCh k).toNat = 48 + k := by
  unfold digitCh
  exact toNat_ofNat_small (48 + k) (by omega)

theorem digitCh_isDigit (k : Nat) (h : k < 10) : isDigitCh (digitCh k) = true := by
  have := digitCh_toNat k h
  simp [isDigitCh, this]
  omega

/-- Correctness of the decimal rendering: the digits are nonempty, are
digits, and fold back to the number they render. -/
theorem decDigitsGo_spec :
    ∀ (fuel n : Nat), n < fuel →
      decDigitsGo fuel n ≠ [] ∧ (∀ c ∈ decDigitsGo fuel n, isDigitCh c = true) ∧
      ∀ acc : Nat,
        (decDigitsGo fuel n).foldl (fun a c => a * 10 + (c.toNat - 48)) acc
          = acc * 10 ^ (decDigitsGo fuel n).length + n := by
  intro fuel
  induction fuel with
  | zero => intro n hn; omega
  | succ f ih =>
    intro n hn
    by_cases h10 : n < 10
    · refine ⟨by simp [decDigitsGo, h10], ?_, ?_⟩
      · intro c hc
        simp [decDigitsGo, h10] at hc
        rw [hc]
        exact digitCh_isDigit n h10
      · intro acc
        simp [decDigitsGo, h10, digitCh_toNat n h10]
    · have hdiv : n / 10 < f := by omega
      obtain ⟨hne, hdig, hval⟩ := ih (n / 10) hdiv
      refine ⟨by simp [decDigitsGo, h10], ?_, ?_⟩
      · intro c hc
        simp only [decDigitsGo, if_neg h10, List.mem_append, List.mem_singleton] at hc
        rcases hc with hc | hc
        · exact hdig c hc
        · rw [hc]
          exact digitCh_isDigit (n % 10) (by omega)
      · intro acc
        simp only [decDigitsGo, if_neg h10, List.foldl_append, List.foldl_cons,
          List.foldl_nil, List.length_append, List.length_cons, List.length_nil]
        rw [hval acc, digitCh_toNat (n % 10) (by omega)]
        have h49 : 48 + n % 10 - 48 = n % 10 := by omega
        rw [h49]
        have key : n / 10 * 10 + n % 10 = n := by omega
        calc (acc * 10 ^ (decDigitsGo f (n / 10)).length + n / 10) * 10 + n % 10
            = acc * (10 ^ (decDigitsGo f (n / 10)).length * 10) +
                (n / 10 * 10 + n % 10) := by ring
          _ = acc * 10 ^ ((decDigitsGo f (n / 10)).length + 1) + n := by
              rw [key, pow_succ]

/-- The digit scan over a digit run in the middle of memory consumes exactly
the run and folds its value onto the accumulator. -/
theorem scanDigits_over :
    ∀ (ds : List Char), (∀ c ∈ ds, isDigitCh c = true) →
      ∀ (pre rest : List Char) (acc : Nat), isDigitCh (chAt rest 0) = false →
        scanDigits (pre ++ (ds ++ rest)) pre.length acc
          = (ds.foldl (fun a c => a * 10 + (c.toNat - 48)) acc, pre.length + ds.length) := by
  intro ds
  induction ds with
  | nil =>
    intro _ pre rest acc hrest
    have h0 : chAt (pre ++ ([] ++ rest)) pre.length = chAt rest 0 := by
      simpa using chAt_append_right pre rest 0
    unfold scanDigits
    rw [if_neg (by rw [h0, hrest]; simp)]
    simp
  | cons d ds ih =>
    intro hdig pre rest acc hrest
    have hd : isDigitCh d = true := hdig d (by simp)
    have h0 : chAt (pre ++ ((d :: ds) ++ rest)) pre.length = d := by
      have := chAt_mid pre (d :: ds) rest 0 (by simp)
      simpa using this
    have hmem : pre ++ ((d :: ds) ++ rest) = (pre ++ [d]) ++ (ds ++ rest) := by
      simp
    have ihx := ih (fun c hc => hdig c (by simp [hc])) (pre ++ [d]) rest
      (acc * 10 + (d.toNat - 48)) hrest
    unfold scanDigits
    rw [if_pos (by rw [h0]; exact hd), h0]
    rw [hmem, show pre.length + 1 = (pre ++ [d]).length by simp, ihx]
    simp only [List.foldl_cons, List.length_append, List.length_cons, List.length_nil,
      Prod.mk.injEq, true_and]
    omega


/-- Model of `strtod` applied to a printed `%d` integer in the middle of
memory: the integer is recovered exactly (as the fraction `i / 1`) and
exactly its digits are consumed. -/
theorem strtodScan_sprintf_d (i : Int) (pre rest : List Char)
    (h1 : isDigitCh (chAt rest 0) = false) (h2 : chAt rest 0 ≠ '.')
    (h3 : chAt rest 0 ≠ 'e') (h4 : chAt rest 0 ≠ 'E') :
    strtodScan (pre ++ (sprintf_d i ++ rest)) pre.length
      = (.finite i 1, (sprintf_d i).length) := by
  obtain ⟨hne, hdig, hval⟩ := decDigitsGo_spec (i.natAbs + 1) i.natAbs (by omega)
  have hdigs : ∀ c ∈ natDecDigits i.natAbs, isDigitCh c = true := by
    unfold natDecDigits
    exact hdig
  have hnen : natDecDigits i.natAbs ≠ [] := by
    unfold natDecDigits
    exact hne
  have hvaln : (natDecDigits i.natAbs).foldl (fun a c => a * 10 + (c.toNat - 48)) 0
      = i.natAbs := by
    unfold natDecDigits
    rw [hval 0]
    simp
  have hlpos : 0 < (natDecDigits i.natAbs).length := by
    cases hn : natDecDigits i.natAbs with
    | nil => exact absurd hn hnen
    | cons a l => simp
  by_cases hneg : i < 0
  · have hsd : sprintf_d i = '-' :: natDecDigits i.natAbs := by
      simp [sprintf_d, hneg]
    have hmem : pre ++ (sprintf_d i ++ rest)
        = pre ++ (['-'] ++ (natDecDigits i.natAbs ++ rest)) := by
      simp [hsd]
    have h0 : chAt (pre ++ (sprintf_d i ++ rest)) pre.length = '-' := by
      rw [hmem]
      have := chAt_mid pre ['-'] (natDecDigits i.natAbs ++ rest) 0 (by simp)
      simpa using this
    have hscan : scanDigits (pre ++ (sprintf_d i ++ rest)) (pre.length + 1) 0
        = (i.natAbs, pre.length + 1 + (natDecDigits i.natAbs).length) := by
      rw [hmem, show pre ++ (['-'] ++ (natDecDigits i.natAbs ++ rest))
          = (pre ++ ['-']) ++ (natDecDigits i.natAbs ++ rest) by simp,
        show pre.length + 1 = (pre ++ ['-']).length by simp,
        scanDigits_over (natDecDigits i.natAbs) hdigs (pre ++ ['-']) rest 0 h1, hvaln]
    have hx := chAt_append_right (pre ++ ['-'] ++ natDecDigits i.natAbs) rest 0
    have hrest0 : chAt (pre ++ (sprintf_d i ++ rest))
        (pre.length + 1 + (natDecDigits i.natAbs).length) = chAt rest 0 := by
      rw [hmem, show pre ++ (['-'] ++ (natDecDigits i.natAbs ++ rest))
          = (pre ++ ['-'] ++ natDecDigits i.natAbs) ++ rest by simp,
        show pre.length + 1 + (natDecDigits i.natAbs).length
          = (pre ++ ['-'] ++ natDecDigits i.natAbs).length + 0 by
            simp only [List.length_append, List.length_cons, List.length_nil] <;> omega]
      exact hx
    have hL : ¬ (pre.length + 1 + (natDecDigits i.natAbs).length = pre.length + 1) := by
      omega
    simp +decide [strtodScan, h0, hscan, hrest0, h1, h2, h3, h4, hL]
    constructor
    · simp [abs_of_neg hneg]
    · rw [hsd]
      simp only [List.length_cons]
      omega
  · have hsd : sprintf_d i = natDecDigits i.natAbs := by
      simp [sprintf_d, hneg]
    obtain ⟨d0, ds0, hds⟩ : ∃ d0 ds0, natDecDigits i.natAbs = d0 :: ds0 := by
      cases hn : natDecDigits i.natAbs with
      | nil => exact absurd hn hnen
      | cons a l => exact ⟨a, l, rfl⟩
    have hd0 : isDigitCh d0 = true := by
      apply hdigs
      rw [hds]
      simp
    have hd0n : 48 ≤ d0.toNat ∧ d0.toNat ≤ 57 := by
      simpa [isDigitCh] using hd0
    have h0 : chAt (pre ++ (sprintf_d i ++ rest)) pre.length = d0 := by
      rw [hsd, hds]
      have := chAt_mid pre (d0 :: ds0) rest 0 (by simp)
      simpa using this
    have hminus : chAt (pre ++ (sprintf_d i ++ rest)) pre.length ≠ '-' := by
      rw [h0]
      intro hh
      rw [hh] at hd0n
      revert hd0n
      decide
    have hplus : chAt (pre ++ (sprintf_d i ++ rest)) pre.length ≠ '+' := by
      rw [h0]
      intro hh
      rw [hh] at hd0n
      revert hd0n
      decide
    have hscan : scanDigits (pre ++ (sprintf_d i ++ rest)) pre.length 0
        = (i.natAbs, pre.length + (natDecDigits i.natAbs).length) := by
      rw [hsd]
      rw [scanDigits_over (natDecDigits i.natAbs) hdigs pre rest 0 h1, hvaln]
    have hx := chAt_append_right (pre ++ natDecDigits i.natAbs) rest 0
    have hrest0 : chAt (pre ++ (sprintf_d i ++ rest))
        (pre.length + (natDecDigits i.natAbs).length) = chAt rest 0 := by
      rw [hsd, show pre ++ (natDecDigits i.natAbs ++ rest)
          = (pre ++ natDecDigits i.natAbs) ++ rest by simp,
        show pre.length + (natDecDigits i.natAbs).length
          = (pre ++ natDecDigits i.natAbs).length + 0 by
            simp only [List.length_append]
            omega]
      exact hx
    have hL : ¬ (pre.length + (natDecDigits i.natAbs).length = pre.length) := by
      omega
    simp +decide [strtodScan, hminus, hplus, hscan, hrest0, h1, h2, h3, h4, hL]
    exact ⟨by omega, by rw [hsd]⟩

/-- Long-division digits are decimal digits while the remainder stays below
the divisor. -/
theorem fracDigits_digits :
    ∀ (k num den : Nat), 0 < den → num < den →
      ∀ c ∈ fracDigits k num den, isDigitCh c = true := by
  intro k
  induction k with
  | zero => intro num den _ _ c hc; simp [fracDigits] at hc
  | succ k ih =>
    intro num den hden hlt c hc
    cases num with
    | zero => simp [fracDigits] at hc
    | succ m =>
      simp only [fracDigits, List.mem_cons] at hc
      rcases hc with hc | hc
      · rw [hc]
        apply digitCh_isDigit
        rw [Nat.div_lt_iff_lt_mul hden]
        omega
      · exact ih ((m + 1) * 10 % den) den hden (Nat.mod_lt _ hden) c hc

theorem fracDigits_ne_nil (k num den : Nat) (hk : 0 < k) (hnum : 0 < num) :
    fracDigits k num den ≠ [] := by
  cases k with
  | zero => omega
  | succ k =>
    cases num with
    | zero => omega
    | succ m => simp [fracDigits]

/-- Model of `strtod` applied to a printed `%g` fraction in the middle of
memory: exactly the printed characters are consumed (the recovered value is
not needed by any claim — the round trip only compares integer-valued
numbers). -/
theorem strtodScan_fmtG_snd (n d : Int) (hd : 0 < d) (hfr : n.natAbs % d.natAbs ≠ 0)
    (pre rest : List Char)
    (h1 : isDigitCh (chAt rest 0) = false) (h2 : chAt rest 0 ≠ '.')
    (h3 : chAt rest 0 ≠ 'e') (h4 : chAt rest 0 ≠ 'E') :
    (strtodScan (pre ++ (fmtG n d ++ rest)) pre.length).2 = (fmtG n d).length := by
  have hda : 0 < d.natAbs := by omega
  have hfrlt : n.natAbs % d.natAbs < d.natAbs := Nat.mod_lt _ hda
  obtain ⟨hne, hdig, hval⟩ :=
    decDigitsGo_spec (n.natAbs / d.natAbs + 1) (n.natAbs / d.natAbs) (by omega)
  have hdigs : ∀ c ∈ natDecDigits (n.natAbs / d.natAbs), isDigitCh c = true := by
    unfold natDecDigits
    exact hdig
  have hnen : natDecDigits (n.natAbs / d.natAbs) ≠ [] := by
    unfold natDecDigits
    exact hne
  have hlpos : 0 < (natDecDigits (n.natAbs / d.natAbs)).length := by
    cases hn : natDecDigits (n.natAbs / d.natAbs) with
    | nil => exact absurd hn hnen
    | cons a l => simp
  have hfdig : ∀ c ∈ fracDigits 17 (n.natAbs % d.natAbs) d.natAbs, isDigitCh c = true :=
    fracDigits_digits 17 _ _ hda hfrlt
  have hfne : fracDigits 17 (n.natAbs % d.natAbs) d.natAbs ≠ [] :=
    fracDigits_ne_nil 17 _ _ (by omega) (by omega)
  have hfpos : 0 < (fracDigits 17 (n.natAbs % d.natAbs) d.natAbs).length := by
    cases hn : fracDigits 17 (n.natAbs % d.natAbs) d.natAbs with
    | nil => exact absurd hn hfne
    | cons a l => simp
  have hsh : fmtG n d ++ rest
      = (if n < 0 then ['-'] else []) ++ (natDecDigits (n.natAbs / d.natAbs) ++
          ('.' :: (fracDigits 17 (n.natAbs % d.natAbs) d.natAbs ++ rest))) := by
    simp [fmtG, hfr, List.append_assoc]
  have hflen : (fmtG n d).length = (if n < 0 then 1 else 0) +
      (natDecDigits (n.natAbs / d.natAbs)).length + 1 +
      (fracDigits 17 (n.natAbs % d.natAbs) d.natAbs).length := by
    by_cases hneg : n < 0 <;> simp [fmtG, hfr, hneg] <;> omega
  by_cases hneg : n < 0
  · have hmem : pre ++ (fmtG n d ++ rest)
        = pre ++ (['-'] ++ (natDecDigits (n.natAbs / d.natAbs) ++
            ('.' :: (fracDigits 17 (n.natAbs % d.natAbs) d.natAbs ++ rest)))) := by
      rw [hsh, if_pos hneg]
    have h0 : chAt (pre ++ (fmtG n d ++ rest)) pre.length = '-' := by
      rw [hmem]
      have := chAt_mid pre ['-'] (natDecDigits (n.natAbs / d.natAbs) ++
        ('.' :: (fracDigits 17 (n.natAbs % d.natAbs) d.natAbs ++ rest))) 0 (by simp)
      simpa using this
    have hscan1 : scanDigits (pre ++ (fmtG n d ++ rest)) (pre.length + 1) 0
        = ((natDecDigits (n.natAbs / d.natAbs)).foldl
             (fun a c => a * 10 + (c.toNat - 48)) 0,
           pre.length + 1 + (natDecDigits (n.natAbs / d.natAbs)).length) := by
      rw [hmem, show pre ++ (['-'] ++ (natDecDigits (n.natAbs / d.natAbs) ++
            ('.' :: (fracDigits 17 (n.natAbs % d.natAbs) d.natAbs ++ rest))))
          = (pre ++ ['-']) ++ (natDecDigits (n.natAbs / d.natAbs) ++
            ('.' :: (fracDigits 17 (n.natAbs % d.natAbs) d.natAbs ++ rest))) by simp,
        show pre.length + 1 = (pre ++ ['-']).length by simp]
      rw [scanDigits_over (natDecDigits (n.natAbs / d.natAbs)) hdigs (pre ++ ['-'])
        ('.' :: (fracDigits 17 (n.natAbs % d.natAbs) d.natAbs ++ rest)) 0
        (by rw [chAt_cons_zero]; decide)]
    have hdot : chAt (pre ++ (fmtG n d ++ rest))
        (pre.length + 1 + (natDecDigits (n.natAbs / d.natAbs)).length) = '.' := by
      rw [hmem, show pre ++ (['-'] ++ (natDecDigits (n.natAbs / d.natAbs) ++
            ('.' :: (fracDigits 17 (n.natAbs % d.natAbs) d.natAbs ++ rest))))
          = (pre ++ ['-'] ++ natDecDigits (n.natAbs / d.natAbs)) ++
            (['.'] ++ (fracDigits 17 (n.natAbs % d.natAbs) d.natAbs ++ rest)) by simp,
        show pre.length + 1 + (natDecDigits (n.natAbs / d.natAbs)).length
          = (pre ++ ['-'] ++ natDecDigits (n.natAbs / d.natAbs)).length + 0 by
            simp only [List.length_append, List.length_cons, List.length_nil] <;> omega]
      have := chAt_mid (pre ++ ['-'] ++ natDecDigits (n.natAbs / d.natAbs)) ['.']
        (fracDigits 17 (n.natAbs % d.natAbs) d.natAbs ++ rest) 0 (by simp)
      simpa using this
    have hscan2 : scanDigits (pre ++ (fmtG n d ++ rest))
        (pre.length + 1 + (natDecDigits (n.natAbs / d.natAbs)).length + 1) 0
        = ((fracDigits 17 (n.natAbs % d.natAbs) d.natAbs).foldl
             (fun a c => a * 10 + (c.toNat - 48)) 0,
           pre.length + 1 + (natDecDigits (n.natAbs / d.natAbs)).length + 1 +
             (fracDigits 17 (n.natAbs % d.natAbs) d.natAbs).length) := by
      rw [hmem, show pre ++ (['-'] ++ (natDecDigits (n.natAbs / d.natAbs) ++
            ('.' :: (fracDigits 17 (n.natAbs % d.natAbs) d.natAbs ++ rest))))
          = (pre ++ ['-'] ++ natDecDigits (n.natAbs / d.natAbs) ++ ['.']) ++
            (fracDigits 17 (n.natAbs % d.natAbs) d.natAbs ++ rest) by simp,
        show pre.length + 1 + (natDecDigits (n.natAbs / d.natAbs)).length + 1
          = (pre ++ ['-'] ++ natDecDigits (n.natAbs / d.natAbs) ++ ['.']).length by
            simp only [List.length_append, List.length_cons, List.length_nil] <;> omega]
      rw [scanDigits_over (fracDigits 17 (n.natAbs % d.natAbs) d.natAbs) hfdig
        (pre ++ ['-'] ++ natDecDigits (n.natAbs / d.natAbs) ++ ['.']) rest 0 h1]
    have hrest0 : chAt (pre ++ (fmtG n d ++ rest))
        (pre.length + 1 + (natDecDigits (n.natAbs / d.natAbs)).length + 1 +
          (fracDigits 17 (n.natAbs % d.natAbs) d.natAbs).length) = chAt rest 0 := by
      rw [hmem, show pre ++ (['-'] ++ (natDecDigits (n.natAbs / d.natAbs) ++
            ('.' :: (fracDigits 17 (n.natAbs % d.natAbs) d.natAbs ++ rest))))
          = (pre ++ ['-'] ++ natDecDigits (n.natAbs / d.natAbs) ++ ['.'] ++
             fracDigits 17 (n.natAbs % d.natAbs) d.natAbs) ++ rest by simp,
        show pre.length + 1 + (natDecDigits (n.natAbs / d.natAbs)).length + 1 +
            (fracDigits 17 (n.natAbs % d.natAbs) d.natAbs).length
          = (pre ++ ['-'] ++ natDecDigits (n.natAbs / d.natAbs) ++ ['.'] ++
             fracDigits 17 (n.natAbs % d.natAbs) d.natAbs).length + 0 by
            simp only [List.length_append, List.length_cons, List.length_nil] <;> omega]
      exact chAt_append_right _ rest 0
    have hL : ¬ (pre.length + 1 + (natDecDigits (n.natAbs / d.natAbs)).length
        = pre.length + 1) := by omega
    simp +decide [strtodScan, h0, hscan1, hdot, hscan2, hrest0, h1, h2, h3, h4, hL]
    rw [hflen, if_pos hneg]
    omega
  · obtain ⟨d0, ds0, hds⟩ : ∃ d0 ds0, natDecDigits (n.natAbs / d.natAbs) = d0 :: ds0 := by
      cases hn : natDecDigits (n.natAbs / d.natAbs) with
      | nil => exact absurd hn hnen
      | cons a l => exact ⟨a, l, rfl⟩
    have hd0 : isDigitCh d0 = true := by
      apply hdigs
      rw [hds]
      simp
    have hd0n : 48 ≤ d0.toNat ∧ d0.toNat ≤ 57 := by
      simpa [isDigitCh] using hd0
    have hmem : pre ++ (fmtG n d ++ rest)
        = pre ++ (natDecDigits (n.natAbs / d.natAbs) ++
            ('.' :: (fracDigits 17 (n.natAbs % d.natAbs) d.natAbs ++ rest))) := by
      rw [hsh, if_neg hneg]
      simp
    have h0 : chAt (pre ++ (fmtG n d ++ rest)) pre.length = d0 := by
      rw [hmem, hds]
      have := chAt_mid pre (d0 :: ds0)
        ('.' :: (fracDigits 17 (n.natAbs % d.natAbs) d.natAbs ++ rest)) 0 (by simp)
      simpa using this
    have hminus : chAt (pre ++ (fmtG n d ++ rest)) pre.length ≠ '-' := by
      rw [h0]
      intro hh
      rw [hh] at hd0n
      revert hd0n
      decide
    have hplus : chAt (pre ++ (fmtG n d ++ rest)) pre.length ≠ '+' := by
      rw [h0]
      intro hh
      rw [hh] at hd0n
      revert hd0n
      decide
    have hscan1 : scanDigits (pre ++ (fmtG n d ++ rest)) pre.length 0
        = ((natDecDigits (n.natAbs / d.natAbs)).foldl
             (fun a c => a * 10 + (c.toNat - 48)) 0,
           pre.length + (natDecDigits (n.natAbs / d.natAbs)).length) := by
      rw [hmem]
      rw [scanDigits_over (natDecDigits (n.natAbs / d.natAbs)) hdigs pre
        ('.' :: (fracDigits 17 (n.natAbs % d.natAbs) d.natAbs ++ rest)) 0
        (by rw [chAt_cons_zero]; decide)]
    have hdot : chAt (pre ++ (fmtG n d ++ rest))
        (pre.length + (natDecDigits (n.natAbs / d.natAbs)).length) = '.' := by
      rw [hmem, show pre ++ (natDecDigits (n.natAbs / d.natAbs) ++
            ('.' :: (fracDigits 17 (n.natAbs % d.natAbs) d.natAbs ++ rest)))
          = (pre ++ natDecDigits (n.natAbs / d.natAbs)) ++
            (['.'] ++ (fracDigits 17 (n.natAbs % d.natAbs) d.natAbs ++ rest)) by simp,
        show pre.length + (natDecDigits (n.natAbs / d.natAbs)).length
          = (pre ++ natDecDigits (n.natAbs / d.natAbs)).length + 0 by
            simp only [List.length_append, List.length_cons, List.length_nil] <;> omega]
      have := chAt_mid (pre ++ natDecDigits (n.natAbs / d.natAbs)) ['.']
        (fracDigits 17 (n.natAbs % d.natAbs) d.natAbs ++ rest) 0 (by simp)
      simpa using this
    have hscan2 : scanDigits (pre ++ (fmtG n d ++ rest))
        (pre.length + (natDecDigits (n.natAbs / d.natAbs)).length + 1) 0
        = ((fracDigits 17 (n.natAbs % d.natAbs) d.natAbs).foldl
             (fun a c => a * 10 + (c.toNat - 48)) 0,
           pre.length + (natDecDigits (n.natAbs / d.natAbs)).length + 1 +
             (fracDigits 17 (n.natAbs % d.natAbs) d.natAbs).length) := by
      rw [hmem, show pre ++ (natDecDigits (n.natAbs / d.natAbs) ++
            ('.' :: (fracDigits 17 (n.natAbs % d.natAbs) d.natAbs ++ rest)))
          = (pre ++ natDecDigits (n.natAbs / d.natAbs) ++ ['.']) ++
            (fracDigits 17 (n.natAbs % d.natAbs) d.natAbs ++ rest) by simp,
        show pre.length + (natDecDigits (n.natAbs / d.natAbs)).length + 1
          = (pre ++ natDecDigits (n.natAbs / d.natAbs) ++ ['.']).length by
            simp only [List.length_append, List.length_cons, List.length_nil] <;> omega]
      rw [scanDigits_over (fracDigits 17 (n.natAbs % d.natAbs) d.natAbs) hfdig
        (pre ++ natDecDigits (n.natAbs / d.natAbs) ++ ['.']) rest 0 h1]
    have hrest0 : chAt (pre ++ (fmtG n d ++ rest))
        (pre.length + (natDecDigits (n.natAbs / d.natAbs)).length + 1 +
          (fracDigits 17 (n.natAbs % d.natAbs) d.natAbs).length) = chAt rest 0 := by
      rw [hmem, show pre ++ (natDecDigits (n.natAbs / d.natAbs) ++
            ('.' :: (fracDigits 17 (n.natAbs % d.natAbs) d.natAbs ++ rest)))
          = (pre ++ natDecDigits (n.natAbs / d.natAbs) ++ ['.'] ++
             fracDigits 17 (n.natAbs % d.natAbs) d.natAbs) ++ rest by simp,
        show pre.length + (natDecDigits (n.natAbs / d.natAbs)).length + 1 +
            (fracDigits 17 (n.natAbs % d.natAbs) d.natAbs).length
          = (pre ++ natDecDigits (n.natAbs / d.natAbs) ++ ['.'] ++
             fracDigits 17 (n.natAbs % d.natAbs) d.natAbs).length + 0 by
            simp only [List.length_append, List.length_cons, List.length_nil] <;> omega]
      exact chAt_append_right _ rest 0
    have hL : ¬ (pre.length + (natDecDigits (n.natAbs / d.natAbs)).length
        = pre.length) := by omega
    simp +decide [strtodScan, hminus, hplus, hscan1, hdot, hscan2, hrest0, h1, h2, h3,
      h4, hL]
    rw [hflen, if_neg hneg]
    omega

/-! ## Round-trip lemmas: dispatch characters -/

/-- A character whose byte value lies in a band differs from any character
outside the band. -/
theorem char_toNat_band {c : Char} (lo hi : Nat) (h : lo ≤ c.toNat ∧ c.toNat ≤ hi)
    {d : Char} (hd : d.toNat < lo ∨ hi < d.toNat) : c ≠ d := by
  intro hh
  rw [hh] at h
  omega

/-- Facts about the first character of a printed number (`-` or a digit):
it is above whitespace and is none of the dispatch characters of the other
value forms. -/
theorem numHead_facts {c : Char} (h : c = '-' ∨ isDigitCh c = true) :
    32 < c.toNat ∧ c ≠ nulc ∧ c ≠ '"' ∧ c ≠ 'n' ∧ c ≠ 'f' ∧ c ≠ 't' ∧
    c ≠ '[' ∧ c ≠ '{' ∧ c ≠ ']' ∧ c ≠ '}' ∧ c ≠ ',' := by
  have hb : 45 ≤ c.toNat ∧ c.toNat ≤ 57 := by
    rcases h with h | h
    · rw [h]
      constructor <;> decide
    · have h2 : 48 ≤ c.toNat ∧ c.toNat ≤ 57 := by simpa [isDigitCh] using h
      omega
  exact ⟨by omega, char_toNat_band 45 57 hb (by decide),
    char_toNat_band 45 57 hb (by decide), char_toNat_band 45 57 hb (by decide),
    char_toNat_band 45 57 hb (by decide), char_toNat_band 45 57 hb (by decide),
    char_toNat_band 45 57 hb (by decide), char_toNat_band 45 57 hb (by decide),
    char_toNat_band 45 57 hb (by decide), char_toNat_band 45 57 hb (by decide),
    char_toNat_band 45 57 hb (by decide)⟩

/-- The head of a printed `%d` integer is a sign or a digit, and every one
of its characters is a sign or a digit. -/
theorem sprintf_d_shape (i : Int) :
    (∃ c cs, sprintf_d i = c :: cs ∧ (c = '-' ∨ isDigitCh c = true)) ∧
    (∀ c ∈ sprintf_d i, c = '-' ∨ isDigitCh c = true) := by
  obtain ⟨hne, hdig, _⟩ := decDigitsGo_spec (i.natAbs + 1) i.natAbs (by omega)
  have hdigs : ∀ c ∈ natDecDigits i.natAbs, isDigitCh c = true := by
    unfold natDecDigits
    exact hdig
  have hnen : natDecDigits i.natAbs ≠ [] := by
    unfold natDecDigits
    exact hne
  obtain ⟨d0, ds0, hds⟩ : ∃ d0 ds0, natDecDigits i.natAbs = d0 :: ds0 := by
    cases hn : natDecDigits i.natAbs with
    | nil => exact absurd hn hnen
    | cons a l => exact ⟨a, l, rfl⟩
  by_cases hneg : i < 0
  · constructor
    · exact ⟨'-', natDecDigits i.natAbs, by simp [sprintf_d, hneg], Or.inl rfl⟩
    · intro c hc
      simp only [sprintf_d, if_pos hneg, List.mem_cons] at hc
      rcases hc with hc | hc
      · exact Or.inl hc
      · exact Or.inr (hdigs c hc)
  · constructor
    · refine ⟨d0, ds0, ?_, Or.inr (hdigs d0 (by rw [hds]; simp))⟩
      rw [sprintf_d, if_neg hneg, hds]
    · intro c hc
      simp only [sprintf_d, if_neg hneg] at hc
      exact Or.inr (hdigs c hc)

/-- The head of a printed `%g` fraction is a sign or a digit, and every one
of its characters is a sign, a digit, or the decimal dot. -/
theorem fmtG_shape (n d : Int) (hd : 0 < d) :
    (∃ c cs, fmtG n d = c :: cs ∧ (c = '-' ∨ isDigitCh c = true)) ∧
    (∀ c ∈ fmtG n d, c = '-' ∨ c = '.' ∨ isDigitCh c = true) := by
  have hda : 0 < d.natAbs := by omega
  obtain ⟨hne, hdig, _⟩ :=
    decDigitsGo_spec (n.natAbs / d.natAbs + 1) (n.natAbs / d.natAbs) (by omega)
  have hdigs : ∀ c ∈ natDecDigits (n.natAbs / d.natAbs), isDigitCh c = true := by
    unfold natDecDigits
    exact hdig
  have hnen : natDecDigits (n.natAbs / d.natAbs) ≠ [] := by
    unfold natDecDigits
    exact hne
  obtain ⟨d0, ds0, hds⟩ : ∃ d0 ds0, natDecDigits (n.natAbs / d.natAbs) = d0 :: ds0 := by
    cases hn : natDecDigits (n.natAbs / d.natAbs) with
    | nil => exact absurd hn hnen
    | cons a l => exact ⟨a, l, rfl⟩
  have hfdig : ∀ c ∈ fracDigits 17 (n.natAbs % d.natAbs) d.natAbs, isDigitCh c = true :=
    fracDigits_digits 17 _ _ hda (Nat.mod_lt _ hda)
  have hmem : ∀ c ∈ fmtG n d, c = '-' ∨ c = '.' ∨ isDigitCh c = true := by
    intro c hc
    rw [fmtG] at hc
    simp only [List.mem_append] at hc
    rcases hc with (hc | hc) | hc
    · split at hc
      · simp only [List.mem_singleton] at hc
        exact Or.inl hc
      · simp at hc
    · exact Or.inr (Or.inr (hdigs c hc))
    · split at hc
      · simp at hc
      · simp only [List.mem_cons] at hc
        rcases hc with hc | hc
        · exact Or.inr (Or.inl hc)
        · exact Or.inr (Or.inr (hfdig c hc))
  refine ⟨?_, hmem⟩
  by_cases hneg : n < 0
  · refine ⟨'-', natDecDigits (n.natAbs / d.natAbs) ++
      (if n.natAbs % d.natAbs = 0 then [] else
        '.' :: fracDigits 17 (n.natAbs % d.natAbs) d.natAbs), ?_, Or.inl rfl⟩
    rw [fmtG]
    rw [if_pos hneg]
    simp
  · refine ⟨d0, ds0 ++ (if n.natAbs % d.natAbs = 0 then [] else
      '.' :: fracDigits 17 (n.natAbs % d.natAbs) d.natAbs), ?_,
      Or.inr (hdigs d0 (by rw [hds]; simp))⟩
    rw [fmtG]
    rw [if_neg hneg, hds]
    simp

/-! ## Round-trip lemmas: glue -/

/-- What follows a printed value never continues a number token. -/
theorem sepish_strtod_conds (rest : List Char) (h : sepish rest) :
    isDigitCh (chAt rest 0) = false ∧ chAt rest 0 ≠ '.' ∧ chAt rest 0 ≠ 'e' ∧
      chAt rest 0 ≠ 'E' := by
  rcases h with h | h | h | h
  · rw [h]
    refine ⟨by decide, by decide, by decide, by decide⟩
  · rw [h]
    refine ⟨by decide, by decide, by decide, by decide⟩
  · rw [h]
    refine ⟨by decide, by decide, by decide, by decide⟩
  · rw [h]
    have : chAt ([] : List Char) 0 = nulc := rfl
    rw [this]
    refine ⟨by decide, by decide, by decide, by decide⟩

/-- Escaped good strings contain no NUL byte. -/
theorem escBody_no_nul (s : List Char) (hs : goodString s = true) :
    ∀ c ∈ escBody s, c ≠ nulc := by
  induction s with
  | nil => intro c hc; simp [escBody] at hc
  | cons a as ih =>
    intro c hc
    have hga : goodChar a = true ∧ goodString as = true := by
      simpa [goodString, List.all_cons] using hs
    simp only [escBody, List.mem_append] at hc
    rcases hc with hc | hc
    · rcases escChar_cases a hga.1 with ⟨e, hesc, he1, he2, hwhich⟩ | ⟨hesc, hwhich⟩ |
        ⟨hesc, hge, hlt2, hne1, hne2⟩
      · rw [hesc] at hc
        simp only [List.mem_cons, List.mem_singleton] at hc
        rcases hc with hc | hc | hc
        · rw [hc]; decide
        · rcases hwhich with ⟨he, _⟩ | ⟨he, _⟩ | ⟨he, _⟩ | ⟨he, _⟩ | ⟨he, _⟩ <;>
            rw [hc, he] <;> decide
        · simp at hc
      · rw [hesc] at hc
        simp only [List.mem_cons, List.mem_singleton] at hc
        rcases hc with hc | hc | hc
        · rw [hc]; decide
        · rcases hwhich with hw | hw <;> rw [hc, hw] <;> decide
        · simp at hc
      · rw [hesc] at hc
        simp only [List.mem_singleton] at hc
        rw [hc]
        intro hn
        rw [hn] at hge
        simp [nulc] at hge
    · exact ih hga.2 c hc

set_option maxHeartbeats 2000000 in
/-- A flag-free builder value is also acceptable where the flag is
allowed. -/
theorem goodVal_mono (t : cJSONv) (h : goodVal false t = true) :
    goodVal true t = true := by
  cases t with
  | mk ty vs vi vd key ch =>
    simp only [goodVal, Bool.or_eq_true, Bool.and_eq_true, Bool.false_and, Bool.true_and,
      decide_eq_true_eq, Bool.or_false, or_false] at h ⊢
    tauto

theorem structEq_of_parts (a b : cJSONv) (hk : a.string = b.string)
    (hv : structEqVal a b = true) : structEq a b = true := by
  rw [structEq_split, hk]
  simp [hv]

theorem withKey_string (t : cJSONv) (k : Option (List Char)) :
    (t.withKey k).string = k := by
  cases t with
  | mk ty vs vi vd key ch => rfl

theorem withKey_withKey (t : cJSONv) (k k2 : Option (List Char)) :
    (t.withKey k).withKey k2 = t.withKey k2 := by
  cases t with
  | mk ty vs vi vd key ch => rfl

theorem structEqVal_withKey (a b : cJSONv) (k : Option (List Char)) :
    structEqVal a (b.withKey k) = structEqVal a b := by
  unfold structEqVal
  rw [withKey_withKey]

theorem sizeOf_mk_child (ty : Nat) (vs : Option (List Char)) (vi : Int)
    (vd : CDouble) (key : Option (List Char)) (ch : List cJSONv) :
    sizeOf ch < sizeOf (cJSONv.mk ty vs vi vd key ch) := by
  simp only [cJSONv.mk.sizeOf_spec]
  omega

theorem sizeOf_cons_head (c : cJSONv) (cs : List cJSONv) :
    sizeOf c < sizeOf (c :: cs) := by
  simp only [List.cons.sizeOf_spec]
  omega

theorem sizeOf_cons_tail (c : cJSONv) (cs : List cJSONv) :
    sizeOf cs < sizeOf (c :: cs) := by
  simp only [List.cons.sizeOf_spec]
  omega

theorem sizeOf_cJSONv_pos (t : cJSONv) : 0 < sizeOf t := by
  cases t with
  | mk ty vs vi vd key ch =>
    simp only [cJSONv.mk.sizeOf_spec]
    omega

/-- Induction invariant for a printed value: the printer succeeds, the text
is nonempty, begins with a byte above whitespace that closes nothing, holds
no NUL, needs at most three fuel per printed byte, and parses back — from
any position, before any tail whose head is a separator — to a node that is
keyless and structurally equal to the original up to its key. -/
def RoundView (t : cJSONv) : Prop :=
  ∃ body, print_value t = some body ∧ body ≠ [] ∧
    (32 < (chAt body 0).toNat ∧ chAt body 0 ≠ ']' ∧ chAt body 0 ≠ '}' ∧
      chAt body 0 ≠ ',') ∧
    (∀ c ∈ body, c ≠ nulc) ∧
    needFuel t ≤ 3 * body.length ∧
    ∀ (pre rest : List Char) (err : Option String) (fuel : Nat),
      sepish rest → needFuel t ≤ fuel →
      ∃ r, parse_value fuel (pre ++ (body ++ rest))
          (pre ++ (body ++ rest)).length pre.length err
          = (some (r, pre.length + body.length), err) ∧
        r.string = none ∧ structEqVal t r = true

/-- Induction invariant for a printed nonempty element list, matching the
`parse_items` loop. -/
def RoundItems (cs : List cJSONv) : Prop :=
  cs ≠ [] →
  ∃ body, print_items cs = some body ∧
    (32 < (chAt body 0).toNat ∧ chAt body 0 ≠ ']' ∧ chAt body 0 ≠ '}') ∧
    (∀ c ∈ body, c ≠ nulc) ∧
    needFuelList cs ≤ 3 * body.length + 1 ∧
    ∀ (pre rest : List Char) (accT : List cJSONv) (err : Option String) (fuel : Nat),
      endish rest → needFuelList cs ≤ fuel →
      ∃ rs, parse_items fuel (pre ++ (body ++ rest))
          (pre ++ (body ++ rest)).length pre.length accT err
          = (some (accT ++ rs, pre.length + body.length), err) ∧
        structEqList cs rs = true

/-- Induction invariant for a printed nonempty member list, matching the
`parse_members` loop. -/
def RoundMembers (cs : List cJSONv) : Prop :=
  cs ≠ [] →
  ∃ body, print_members cs = some body ∧
    (32 < (chAt body 0).toNat ∧ chAt body 0 ≠ ']' ∧ chAt body 0 ≠ '}') ∧
    (∀ c ∈ body, c ≠ nulc) ∧
    needFuelList cs ≤ 3 * body.length + 1 ∧
    ∀ (pre rest : List Char) (accT : List cJSONv) (err : Option String) (fuel : Nat),
      endish rest → needFuelList cs ≤ fuel →
      ∃ rs, parse_members fuel (pre ++ (body ++ rest))
          (pre ++ (body ++ rest)).length pre.length accT err
          = (some (accT ++ rs, pre.length + body.length), err) ∧
        structEqList cs rs = true

theorem roundView_lit_null (ty : Nat) (key : Option (List Char))
    (hty : ty &&& 0xFF = cJSON_NULL) :
    RoundView (.mk ty none 0 (.finite 0 1) key []) := by
  refine ⟨"null".toList, ?_, by decide, ⟨by decide, by decide, by decide, by decide⟩,
    by decide, by simp only [needFuel, needFuelList]; decide, ?_⟩
  · simp only [print_value]
    rw [if_pos hty]
  · intro pre rest err fuel hsep hfuel
    have hnf : needFuel (cJSONv.mk ty none 0 (.finite 0 1) key []) = 3 := by
      simp [needFuel, needFuelList]
    rw [hnf] at hfuel
    obtain ⟨f, rfl⟩ : ∃ f, fuel = f + 1 := ⟨fuel - 1, by omega⟩
    set mem := pre ++ ("null".toList ++ rest) with hmem
    have hlen : mem.length = pre.length + (4 + rest.length) := by
      rw [hmem]; simp; omega
    have h0 : chAt mem pre.length = 'n' := by
      rw [hmem]
      have := chAt_mid pre ("null".toList) rest 0 (by decide)
      simpa using this
    have hskip : skip_whitespace mem mem.length pre.length = pre.length :=
      skip_noop_char _ _ _ (by rw [h0]; decide)
    refine ⟨.mk cJSON_NULL none 0 (.finite 0 1) none [], ?_, rfl, ?_⟩
    · simp only [parse_value]
      rw [hskip]
      rw [if_neg (not_not_intro (by omega : pre.length < mem.length))]
      rw [if_pos ⟨by omega, by rw [hmem]; exact strncmp0_self _ pre rest⟩]
      simp
    · simp +decide [structEqVal, cJSONv.withKey, structEq, structEqList, hty]

theorem roundView_lit_false (ty : Nat) (key : Option (List Char))
    (hty : ty &&& 0xFF = cJSON_False) :
    RoundView (.mk ty none 0 (.finite 0 1) key []) := by
  refine ⟨"false".toList, ?_, by decide, ⟨by decide, by decide, by decide, by decide⟩,
    by decide, by simp only [needFuel, needFuelList]; decide, ?_⟩
  · simp only [print_value]
    rw [if_neg (by rw [hty]; decide), if_pos hty]
  · intro pre rest err fuel hsep hfuel
    have hnf : needFuel (cJSONv.mk ty none 0 (.finite 0 1) key []) = 3 := by
      simp [needFuel, needFuelList]
    rw [hnf] at hfuel
    obtain ⟨f, rfl⟩ : ∃ f, fuel = f + 1 := ⟨fuel - 1, by omega⟩
    set mem := pre ++ ("false".toList ++ rest) with hmem
    have hlen : mem.length = pre.length + (5 + rest.length) := by
      rw [hmem]; simp; omega
    have h0 : chAt mem pre.length = 'f' := by
      rw [hmem]
      have := chAt_mid pre ("false".toList) rest 0 (by decide)
      simpa using this
    have hskip : skip_whitespace mem mem.length pre.length = pre.length :=
      skip_noop_char _ _ _ (by rw [h0]; decide)
    have hnul : strncmp0 mem pre.length ("null".toList) = false := by
      have hsh : "null".toList = 'n' :: "ull".toList := by decide
      rw [hsh]
      exact strncmp0_head_ne (by rw [h0]; decide)
    refine ⟨.mk cJSON_False none 0 (.finite 0 1) none [], ?_, rfl, ?_⟩
    · simp only [parse_value]
      rw [hskip]
      rw [if_neg (not_not_intro (by omega : pre.length < mem.length))]
      rw [if_neg (by rintro ⟨-, hs⟩; rw [hnul] at hs; exact absurd hs (by decide))]
      rw [if_pos ⟨by omega, by rw [hmem]; exact strncmp0_self _ pre rest⟩]
      simp
    · simp +decide [structEqVal, cJSONv.withKey, structEq, structEqList, hty]

theorem roundView_lit_true (ty : Nat) (key : Option (List Char))
    (hty : ty &&& 0xFF = cJSON_True) :
    RoundView (.mk ty none 0 (.finite 0 1) key []) := by
  refine ⟨"true".toList, ?_, by decide, ⟨by decide, by decide, by decide, by decide⟩,
    by decide, by simp only [needFuel, needFuelList]; decide, ?_⟩
  · simp only [print_value]
    rw [if_neg (by rw [hty]; decide), if_neg (by rw [hty]; decide), if_pos hty]
  · intro pre rest err fuel hsep hfuel
    have hnf : needFuel (cJSONv.mk ty none 0 (.finite 0 1) key []) = 3 := by
      simp [needFuel, needFuelList]
    rw [hnf] at hfuel
    obtain ⟨f, rfl⟩ : ∃ f, fuel = f + 1 := ⟨fuel - 1, by omega⟩
    set mem := pre ++ ("true".toList ++ rest) with hmem
    have hlen : mem.length = pre.length + (4 + rest.length) := by
      rw [hmem]; simp; omega
    have h0 : chAt mem pre.length = 't' := by
      rw [hmem]
      have := chAt_mid pre ("true".toList) rest 0 (by decide)
      simpa using this
    have hskip : skip_whitespace mem mem.length pre.length = pre.length :=
      skip_noop_char _ _ _ (by rw [h0]; decide)
    have hnul : strncmp0 mem pre.length ("null".toList) = false := by
      have hsh : "null".toList = 'n' :: "ull".toList := by decide
      rw [hsh]
      exact strncmp0_head_ne (by rw [h0]; decide)
    have hfal : strncmp0 mem pre.length ("false".toList) = false := by
      have hsh : "false".toList = 'f' :: "alse".toList := by decide
      rw [hsh]
      exact strncmp0_head_ne (by rw [h0]; decide)
    refine ⟨.mk cJSON_True none 0 (.finite 0 1) none [], ?_, rfl, ?_⟩
    · simp only [parse_value]
      rw [hskip]
      rw [if_neg (not_not_intro (by omega : pre.length < mem.length))]
      rw [if_neg (by rintro ⟨-, hs⟩; rw [hnul] at hs; exact absurd hs (by decide))]
      rw [if_neg (by rintro ⟨-, hs⟩; rw [hfal] at hs; exact absurd hs (by decide))]
      rw [if_pos ⟨by omega, by rw [hmem]; exact strncmp0_self _ pre rest⟩]
      simp
    · simp +decide [structEqVal, cJSONv.withKey, structEq, structEqList, hty]

theorem roundView_string (ty : Nat) (s : List Char) (key : Option (List Char))
    (hty : ty &&& 0xFF = cJSON_String) (hs : goodString s = true) :
    RoundView (.mk ty (some s) 0 (.finite 0 1) key []) := by
  have hbody : print_string_ptr (some s) = '"' :: (escBody s ++ ['"']) := by
    simp [print_string_ptr]
  refine ⟨print_string_ptr (some s), ?_, ?_, ⟨?_, ?_, ?_, ?_⟩, ?_, ?_, ?_⟩
  · simp only [print_value]
    rw [if_neg (by rw [hty]; decide), if_neg (by rw [hty]; decide),
      if_neg (by rw [hty]; decide), if_neg (by rw [hty]; decide),
      if_pos (Or.inr hty)]
  · rw [hbody]; simp
  · rw [hbody, chAt_cons_zero]; decide
  · rw [hbody, chAt_cons_zero]; decide
  · rw [hbody, chAt_cons_zero]; decide
  · rw [hbody, chAt_cons_zero]; decide
  · intro c hc
    rw [hbody] at hc
    simp only [List.mem_cons, List.mem_append, List.mem_singleton,
      List.not_mem_nil, or_false] at hc
    rcases hc with hc | hc | hc
    · rw [hc]; decide
    · exact escBody_no_nul s hs c hc
    · rw [hc]; decide
  · have : 1 ≤ (print_string_ptr (some s)).length := by
      rw [hbody]; simp
    simp only [needFuel, needFuelList]
    omega
  · intro pre rest err fuel hsep hfuel
    have hnf : needFuel (cJSONv.mk ty (some s) 0 (.finite 0 1) key []) = 3 := by
      simp [needFuel, needFuelList]
    rw [hnf] at hfuel
    obtain ⟨f, rfl⟩ : ∃ f, fuel = f + 1 := ⟨fuel - 1, by omega⟩
    set mem := pre ++ (print_string_ptr (some s) ++ rest) with hmem
    have hlt : pre.length < mem.length := by
      rw [hmem, hbody]; simp
    have h0 : chAt mem pre.length = '"' := by
      rw [hmem, hbody]
      have := chAt_mid pre ('"' :: (escBody s ++ ['"'])) rest 0 (by simp)
      simpa using this
    have hskip : skip_whitespace mem mem.length pre.length = pre.length :=
      skip_noop_char _ _ _ (by rw [h0]; decide)
    have hnul : strncmp0 mem pre.length ("null".toList) = false := by
      have hsh : "null".toList = 'n' :: "ull".toList := by decide
      rw [hsh]
      exact strncmp0_head_ne (by rw [h0]; decide)
    have hfal : strncmp0 mem pre.length ("false".toList) = false := by
      have hsh : "false".toList = 'f' :: "alse".toList := by decide
      rw [hsh]
      exact strncmp0_head_ne (by rw [h0]; decide)
    have htru : strncmp0 mem pre.length ("true".toList) = false := by
      have hsh : "true".toList = 't' :: "rue".toList := by decide
      rw [hsh]
      exact strncmp0_head_ne (by rw [h0]; decide)
    refine ⟨.mk cJSON_String (some s) 0 (.finite 0 1) none [], ?_, rfl, ?_⟩
    · simp only [parse_value]
      rw [hskip]
      rw [if_neg (not_not_intro hlt)]
      rw [if_neg (by rintro ⟨-, hx⟩; rw [hnul] at hx; exact absurd hx (by decide))]
      rw [if_neg (by rintro ⟨-, hx⟩; rw [hfal] at hx; exact absurd hx (by decide))]
      rw [if_neg (by rintro ⟨-, hx⟩; rw [htru] at hx; exact absurd hx (by decide))]
      rw [if_pos h0]
      rw [hmem, parse_string_print s hs pre rest err]
    · simp +decide [structEqVal, cJSONv.withKey, structEq, structEqList, hty]

theorem roundView_number (ty : Nat) (vi n d : Int) (key : Option (List Char))
    (hty : ty &&& 0xFF = cJSON_Number) (hd : 0 < d) (hvi : vi = Int.tdiv n d) :
    RoundView (.mk ty none vi (.finite n d) key []) := by
  by_cases hde : dEqInt (.finite n d) vi = true
  · obtain ⟨⟨c, cs, hsh, hc⟩, hall⟩ := sprintf_d_shape vi
    obtain ⟨h32, hnu, hq, hn, hf, ht, hlb, hob, hrb, hcb, hcm⟩ := numHead_facts hc
    refine ⟨sprintf_d vi, ?_, by rw [hsh]; simp, ⟨?_, ?_, ?_, ?_⟩, ?_, ?_, ?_⟩
    · simp only [print_value]
      rw [if_neg (by rw [hty]; decide), if_neg (by rw [hty]; decide),
        if_neg (by rw [hty]; decide), if_pos hty]
      simp only [print_number, cJSONv.valuedouble, cJSONv.valueint]
      rw [if_pos hde]
    · rw [hsh, chAt_cons_zero]; exact h32
    · rw [hsh, chAt_cons_zero]; exact hrb
    · rw [hsh, chAt_cons_zero]; exact hcb
    · rw [hsh, chAt_cons_zero]; exact hcm
    · intro x hx
      exact (numHead_facts (hall x hx)).2.1
    · rw [hsh]
      simp only [needFuel, needFuelList, List.length_cons]
      omega
    · intro pre rest err fuel hsep hfuel
      obtain ⟨hc1, hc2, hc3, hc4⟩ := sepish_strtod_conds rest hsep
      have hnf : needFuel (cJSONv.mk ty none vi (.finite n d) key []) = 3 := by
        simp [needFuel, needFuelList]
      rw [hnf] at hfuel
      obtain ⟨f, rfl⟩ : ∃ f, fuel = f + 1 := ⟨fuel - 1, by omega⟩
      set mem := pre ++ (sprintf_d vi ++ rest) with hmem
      have hlt : pre.length < mem.length := by
        rw [hmem, hsh]; simp
      have h0 : chAt mem pre.length = c := by
        rw [hmem, hsh]
        have := chAt_mid pre (c :: cs) rest 0 (by simp)
        simpa using this
      have hskip : skip_whitespace mem mem.length pre.length = pre.length :=
        skip_noop_char _ _ _ (by rw [h0]; omega)
      have hnul : strncmp0 mem pre.length ("null".toList) = false := by
        have hsh2 : "null".toList = 'n' :: "ull".toList := by decide
        rw [hsh2]
        exact strncmp0_head_ne (by rw [h0]; exact hn)
      have hfal : strncmp0 mem pre.length ("false".toList) = false := by
        have hsh2 : "false".toList = 'f' :: "alse".toList := by decide
        rw [hsh2]
        exact strncmp0_head_ne (by rw [h0]; exact hf)
      have htru : strncmp0 mem pre.length ("true".toList) = false := by
        have hsh2 : "true".toList = 't' :: "rue".toList := by decide
        rw [hsh2]
        exact strncmp0_head_ne (by rw [h0]; exact ht)
      have hscan : strtodScan mem pre.length = (.finite vi 1, (sprintf_d vi).length) := by
        rw [hmem]
        exact strtodScan_sprintf_d vi pre rest hc1 hc2 hc3 hc4
      have hlen0 : ¬ (sprintf_d vi).length = 0 := by rw [hsh]; simp
      have hpn : parse_number mem pre.length err =
          (some (.mk cJSON_Number none (Int.tdiv vi 1) (.finite vi 1) none [],
            pre.length + (sprintf_d vi).length), err) := by
        simp only [parse_number, hscan]
        simp [hlen0, dtrunc]
      refine ⟨.mk cJSON_Number none (Int.tdiv vi 1) (.finite vi 1) none [], ?_, rfl, ?_⟩
      · simp only [parse_value]
        rw [hskip]
        rw [if_neg (not_not_intro hlt)]
        rw [if_neg (by rintro ⟨-, hx⟩; rw [hnul] at hx; exact absurd hx (by decide))]
        rw [if_neg (by rintro ⟨-, hx⟩; rw [hfal] at hx; exact absurd hx (by decide))]
        rw [if_neg (by rintro ⟨-, hx⟩; rw [htru] at hx; exact absurd hx (by decide))]
        rw [if_neg (by rw [h0]; exact hq)]
        rw [if_pos (by rw [h0]; exact hc)]
        exact hpn
      · simp +decide [structEqVal, cJSONv.withKey, structEq, structEqList, hty,
          dEqInt] at hde ⊢
  · rw [Bool.not_eq_true] at hde
    have hfr : n.natAbs % d.natAbs ≠ 0 := by
      intro hz
      have hdvd : d ∣ n := Int.natAbs_dvd_natAbs.mp (Nat.dvd_of_mod_eq_zero hz)
      have hcan : Int.tdiv n d * d = n := Int.tdiv_mul_cancel hdvd
      have htrue : dEqInt (.finite n d) vi = true := by
        rw [hvi]
        simp only [dEqInt, dEq, decide_eq_true_eq]
        rw [hcan, mul_one]
      rw [htrue] at hde
      exact absurd hde (by decide)
    obtain ⟨⟨c, cs, hsh, hc⟩, hall⟩ := fmtG_shape n d hd
    obtain ⟨h32, hnu, hq, hn, hf, ht, hlb, hob, hrb, hcb, hcm⟩ := numHead_facts hc
    refine ⟨fmtG n d, ?_, by rw [hsh]; simp, ⟨?_, ?_, ?_, ?_⟩, ?_, ?_, ?_⟩
    · simp only [print_value]
      rw [if_neg (by rw [hty]; decide), if_neg (by rw [hty]; decide),
        if_neg (by rw [hty]; decide), if_pos hty]
      simp only [print_number, cJSONv.valuedouble, cJSONv.valueint]
      rw [if_neg (by rw [hde]; exact Bool.false_ne_true)]
    · rw [hsh, chAt_cons_zero]; exact h32
    · rw [hsh, chAt_cons_zero]; exact hrb
    · rw [hsh, chAt_cons_zero]; exact hcb
    · rw [hsh, chAt_cons_zero]; exact hcm
    · intro x hx
      rcases hall x hx with hx2 | hx2 | hx2
      · rw [hx2]; decide
      · rw [hx2]; decide
      · exact (numHead_facts (Or.inr hx2)).2.1
    · rw [hsh]
      simp only [needFuel, needFuelList, List.length_cons]
      omega
    · intro pre rest err fuel hsep hfuel
      obtain ⟨hc1, hc2, hc3, hc4⟩ := sepish_strtod_conds rest hsep
      have hnf : needFuel (cJSONv.mk ty none vi (.finite n d) key []) = 3 := by
        simp [needFuel, needFuelList]
      rw [hnf] at hfuel
      obtain ⟨f, rfl⟩ : ∃ f, fuel = f + 1 := ⟨fuel - 1, by omega⟩
      set mem := pre ++ (fmtG n d ++ rest) with hmem
      have hlt : pre.length < mem.length := by
        rw [hmem, hsh]; simp
      have h0 : chAt mem pre.length = c := by
        rw [hmem, hsh]
        have := chAt_mid pre (c :: cs) rest 0 (by simp)
        simpa using this
      have hskip : skip_whitespace mem mem.length pre.length = pre.length :=
        skip_noop_char _ _ _ (by rw [h0]; omega)
      have hnul : strncmp0 mem pre.length ("null".toList) = false := by
        have hsh2 : "null".toList = 'n' :: "ull".toList := by decide
        rw [hsh2]
        exact strncmp0_head_ne (by rw [h0]; exact hn)
      have hfal : strncmp0 mem pre.length ("false".toList) = false := by
        have hsh2 : "false".toList = 'f' :: "alse".toList := by decide
        rw [hsh2]
        exact strncmp0_head_ne (by rw [h0]; exact hf)
      have htru : strncmp0 mem pre.length ("true".toList) = false := by
        have hsh2 : "true".toList = 't' :: "rue".toList := by decide
        rw [hsh2]
        exact strncmp0_head_ne (by rw [h0]; exact ht)
      obtain ⟨v, hv⟩ : ∃ v, strtodScan mem pre.length = (v, (fmtG n d).length) := by
        have h2 := strtodScan_fmtG_snd n d hd hfr pre rest hc1 hc2 hc3 hc4
        refine ⟨(strtodScan (pre ++ (fmtG n d ++ rest)) pre.length).1, ?_⟩
        rw [hmem, ← h2]
      have hlen0 : ¬ (fmtG n d).length = 0 := by rw [hsh]; simp
      have hpn : parse_number mem pre.length err =
          (some (.mk cJSON_Number none (dtrunc v) v none [],
            pre.length + (fmtG n d).length), err) := by
        simp only [parse_number, hv]
        simp [hlen0]
      refine ⟨.mk cJSON_Number none (dtrunc v) v none [], ?_, rfl, ?_⟩
      · simp only [parse_value]
        rw [hskip]
        rw [if_neg (not_not_intro hlt)]
        rw [if_neg (by rintro ⟨-, hx⟩; rw [hnul] at hx; exact absurd hx (by decide))]
        rw [if_neg (by rintro ⟨-, hx⟩; rw [hfal] at hx; exact absurd hx (by decide))]
        rw [if_neg (by rintro ⟨-, hx⟩; rw [htru] at hx; exact absurd hx (by decide))]
        rw [if_neg (by rw [h0]; exact hq)]
        rw [if_pos (by rw [h0]; exact hc)]
        exact hpn
      · simp +decide [structEqVal, cJSONv.withKey, structEq, structEqList, hty, hde]

theorem parse_value_open_bracket (mem : List Char) (f off : Nat) (err : Option String)
    (hlt : off < mem.length) (h0 : chAt mem off = '[') :
    parse_value (f + 1) mem mem.length off err = parse_array f mem mem.length off err := by
  have hskip := skip_noop_char mem mem.length off (by rw [h0]; decide)
  have hnul : strncmp0 mem off ("null".toList) = false := by
    have hsh2 : "null".toList = 'n' :: "ull".toList := by decide
    rw [hsh2]
    exact strncmp0_head_ne (by rw [h0]; decide)
  have hfal : strncmp0 mem off ("false".toList) = false := by
    have hsh2 : "false".toList = 'f' :: "alse".toList := by decide
    rw [hsh2]
    exact strncmp0_head_ne (by rw [h0]; decide)
  have htru : strncmp0 mem off ("true".toList) = false := by
    have hsh2 : "true".toList = 't' :: "rue".toList := by decide
    rw [hsh2]
    exact strncmp0_head_ne (by rw [h0]; decide)
  simp only [parse_value]
  rw [hskip]
  rw [if_neg (not_not_intro hlt)]
  rw [if_neg (by rintro ⟨-, hx⟩; rw [hnul] at hx; exact absurd hx (by decide))]
  rw [if_neg (by rintro ⟨-, hx⟩; rw [hfal] at hx; exact absurd hx (by decide))]
  rw [if_neg (by rintro ⟨-, hx⟩; rw [htru] at hx; exact absurd hx (by decide))]
  rw [if_neg (by rw [h0]; decide)]
  rw [if_neg (by rintro (hx | hx) <;> rw [h0] at hx <;> exact absurd hx (by decide))]
  rw [if_pos h0]

theorem parse_value_open_brace (mem : List Char) (f off : Nat) (err : Option String)
    (hlt : off < mem.length) (h0 : chAt mem off = '{') :
    parse_value (f + 1) mem mem.length off err = parse_object f mem mem.length off err := by
  have hskip := skip_noop_char mem mem.length off (by rw [h0]; decide)
  have hnul : strncmp0 mem off ("null".toList) = false := by
    have hsh2 : "null".toList = 'n' :: "ull".toList := by decide
    rw [hsh2]
    exact strncmp0_head_ne (by rw [h0]; decide)
  have hfal : strncmp0 mem off ("false".toList) = false := by
    have hsh2 : "false".toList = 'f' :: "alse".toList := by decide
    rw [hsh2]
    exact strncmp0_head_ne (by rw [h0]; decide)
  have htru : strncmp0 mem off ("true".toList) = false := by
    have hsh2 : "true".toList = 't' :: "rue".toList := by decide
    rw [hsh2]
    exact strncmp0_head_ne (by rw [h0]; decide)
  simp only [parse_value]
  rw [hskip]
  rw [if_neg (not_not_intro hlt)]
  rw [if_neg (by rintro ⟨-, hx⟩; rw [hnul] at hx; exact absurd hx (by decide))]
  rw [if_neg (by rintro ⟨-, hx⟩; rw [hfal] at hx; exact absurd hx (by decide))]
  rw [if_neg (by rintro ⟨-, hx⟩; rw [htru] at hx; exact absurd hx (by decide))]
  rw [if_neg (by rw [h0]; decide)]
  rw [if_neg (by rintro (hx | hx) <;> rw [h0] at hx <;> exact absurd hx (by decide))]
  rw [if_neg (by rw [h0]; decide)]
  rw [if_pos h0]

theorem roundView_array (ty : Nat) (ch : List cJSONv) (key : Option (List Char))
    (hty : ty &&& 0xFF = cJSON_Array) (hri : RoundItems ch) :
    RoundView (.mk ty none 0 (.finite 0 1) key ch) := by
  rcases hch : ch with _ | ⟨c0, ch0⟩
  · refine ⟨['[', ']'], ?_, by decide, ⟨by decide, by decide, by decide, by decide⟩,
      by decide, by simp only [needFuel, needFuelList]; decide, ?_⟩
    · simp only [print_value]
      rw [if_neg (by rw [hty]; decide), if_neg (by rw [hty]; decide),
        if_neg (by rw [hty]; decide), if_neg (by rw [hty]; decide),
        if_neg (by rw [hty]; decide), if_pos hty]
      simp [print_items]
    · intro pre rest err fuel hsep hfuel
      have hnf : needFuel (cJSONv.mk ty none 0 (.finite 0 1) key []) = 3 := by
        simp [needFuel, needFuelList]
      rw [hnf] at hfuel
      obtain ⟨f2, rfl⟩ : ∃ f2, fuel = f2 + 2 := ⟨fuel - 2, by omega⟩
      set mem := pre ++ (['[', ']'] ++ rest) with hmem
      have hlen : mem.length = pre.length + (2 + rest.length) := by
        rw [hmem]; simp; omega
      have h0 : chAt mem pre.length = '[' := by
        rw [hmem]
        have := chAt_mid pre ['[', ']'] rest 0 (by decide)
        simpa using this
      have h1 : chAt mem (pre.length + 1) = ']' := by
        rw [hmem]
        have := chAt_mid pre ['[', ']'] rest 1 (by decide)
        simpa using this
      have hdisp := parse_value_open_bracket mem (f2 + 1) pre.length err
        (by omega) h0
      refine ⟨.mk cJSON_Array none 0 (.finite 0 1) none [], ?_, rfl, ?_⟩
      · rw [show f2 + 2 = (f2 + 1) + 1 by omega, hdisp]
        simp only [parse_array]
        rw [if_neg (not_not_intro h0)]
        rw [skip_noop_char mem mem.length (pre.length + 1) (by rw [h1]; decide)]
        rw [if_pos ⟨by omega, h1⟩]
        simp
      · simp +decide [structEqVal, cJSONv.withKey, structEq, structEqList, hty]
  · obtain ⟨bi, hpi, ⟨hi32, hine1, hine2⟩, hinul, hifuel, hiparse⟩ :=
      hri (by rw [hch]; simp)
    rw [← hch]
    have hbpos : 0 < bi.length := by
      rcases bi with _ | ⟨x, xs⟩
      · rw [show chAt ([] : List Char) 0 = nulc from rfl] at hi32
        exact absurd hi32 (by decide)
      · simp
    refine ⟨'[' :: (bi ++ [']']), ?_, by simp, ⟨by rw [chAt_cons_zero]; decide,
      by rw [chAt_cons_zero]; decide, by rw [chAt_cons_zero]; decide,
      by rw [chAt_cons_zero]; decide⟩, ?_, ?_, ?_⟩
    · simp only [print_value]
      rw [if_neg (by rw [hty]; decide), if_neg (by rw [hty]; decide),
        if_neg (by rw [hty]; decide), if_neg (by rw [hty]; decide),
        if_neg (by rw [hty]; decide), if_pos hty]
      rw [hpi]
      rfl
    · intro x hx
      simp only [List.mem_cons, List.mem_append, List.mem_singleton,
        List.not_mem_nil, or_false] at hx
      rcases hx with hx | hx | hx
      · rw [hx]; decide
      · exact hinul x hx
      · rw [hx]; decide
    · simp only [needFuel, List.length_cons, List.length_append,
        List.length_singleton]
      omega
    · intro pre rest err fuel hsep hfuel
      have hnf : needFuel (cJSONv.mk ty none 0 (.finite 0 1) key ch)
          = 3 + needFuelList ch := by
        simp [needFuel]
      rw [hnf] at hfuel
      have hflb : needFuelList ch ≤ 3 * bi.length + 1 := hifuel
      obtain ⟨f2, rfl⟩ : ∃ f2, fuel = f2 + 2 := ⟨fuel - 2, by omega⟩
      have hf2 : needFuelList ch ≤ f2 := by omega
      set mem := pre ++ (('[' :: (bi ++ [']'])) ++ rest) with hmem
      have hdecomp : mem = (pre ++ ['[']) ++ (bi ++ (']' :: rest)) := by
        rw [hmem]; simp
      have hlen : mem.length = pre.length + (bi.length + 2 + rest.length) := by
        rw [hmem]; simp; omega
      have h0 : chAt mem pre.length = '[' := by
        rw [hmem]
        have := chAt_mid pre ('[' :: (bi ++ [']'])) rest 0 (by simp)
        simpa using this
      have h1 : chAt mem (pre.length + 1) = chAt bi 0 := by
        rw [hdecomp]
        have := chAt_mid (pre ++ ['[']) bi (']' :: rest) 0 hbpos
        simpa using this
      have hclose : chAt mem (pre.length + 1 + bi.length) = ']' := by
        rw [hdecomp]
        have h2 := chAt_append_right (pre ++ ['[']) (bi ++ (']' :: rest)) bi.length
        have h3 := chAt_append_right bi (']' :: rest) 0
        simp only [List.length_append, List.length_singleton] at h2
        rw [show pre.length + 1 + bi.length = pre.length + 1 + bi.length from rfl]
        calc chAt ((pre ++ ['[']) ++ (bi ++ (']' :: rest))) (pre.length + 1 + bi.length)
            = chAt (bi ++ (']' :: rest)) bi.length := by
              rw [← h2]
          _ = ']' := by simpa using h3
      obtain ⟨rs, hpits, hsl⟩ := hiparse (pre ++ ['[']) (']' :: rest) [] err f2
        (Or.inl rfl) hf2
      have e1 : (pre ++ ['[']).length = pre.length + 1 := by simp
      rw [← hdecomp] at hpits
      rw [e1] at hpits
      simp only [List.nil_append] at hpits
      have hdisp := parse_value_open_bracket mem (f2 + 1) pre.length err
        (by omega) h0
      refine ⟨.mk cJSON_Array none 0 (.finite 0 1) none rs, ?_, rfl, ?_⟩
      · rw [show f2 + 2 = (f2 + 1) + 1 by omega, hdisp]
        simp only [parse_array]
        rw [if_neg (not_not_intro h0)]
        rw [skip_noop_char mem mem.length (pre.length + 1) (by rw [h1]; exact hi32)]
        rw [if_neg (by rintro ⟨-, hx⟩; rw [h1] at hx; exact hine1 hx)]
        rw [hpits]
        simp [hclose, List.length_append] <;> omega
      · simp +decide [structEqVal, cJSONv.withKey, structEq, hty, hsl]

theorem roundView_object (ty : Nat) (ch : List cJSONv) (key : Option (List Char))
    (hty : ty &&& 0xFF = cJSON_Object) (hrm : RoundMembers ch) :
    RoundView (.mk ty none 0 (.finite 0 1) key ch) := by
  rcases hch : ch with _ | ⟨c0, ch0⟩
  · refine ⟨['{', '}'], ?_, by decide, ⟨by decide, by decide, by decide, by decide⟩,
      by decide, by simp only [needFuel, needFuelList]; decide, ?_⟩
    · simp only [print_value]
      rw [if_neg (by rw [hty]; decide), if_neg (by rw [hty]; decide),
        if_neg (by rw [hty]; decide), if_neg (by rw [hty]; decide),
        if_neg (by rw [hty]; decide), if_neg (by rw [hty]; decide), if_pos hty]
      simp [print_members]
    · intro pre rest err fuel hsep hfuel
      have hnf : needFuel (cJSONv.mk ty none 0 (.finite 0 1) key []) = 3 := by
        simp [needFuel, needFuelList]
      rw [hnf] at hfuel
      obtain ⟨f2, rfl⟩ : ∃ f2, fuel = f2 + 2 := ⟨fuel - 2, by omega⟩
      set mem := pre ++ (['{', '}'] ++ rest) with hmem
      have hlen : mem.length = pre.length + (2 + rest.length) := by
        rw [hmem]; simp; omega
      have h0 : chAt mem pre.length = '{' := by
        rw [hmem]
        have := chAt_mid pre ['{', '}'] rest 0 (by decide)
        simpa using this
      have h1 : chAt mem (pre.length + 1) = '}' := by
        rw [hmem]
        have := chAt_mid pre ['{', '}'] rest 1 (by decide)
        simpa using this
      have hdisp := parse_value_open_brace mem (f2 + 1) pre.length err
        (by omega) h0
      refine ⟨.mk cJSON_Object none 0 (.finite 0 1) none [], ?_, rfl, ?_⟩
      · rw [show f2 + 2 = (f2 + 1) + 1 by omega, hdisp]
        simp only [parse_object]
        rw [if_neg (not_not_intro h0)]
        rw [skip_noop_char mem mem.length (pre.length + 1) (by rw [h1]; decide)]
        rw [if_pos ⟨by omega, h1⟩]
        simp
      · simp +decide [structEqVal, cJSONv.withKey, structEq, structEqList, hty]
  · obtain ⟨bi, hpi, ⟨hi32, hine1, hine2⟩, hinul, hifuel, hiparse⟩ :=
      hrm (by rw [hch]; simp)
    rw [← hch]
    have hbpos : 0 < bi.length := by
      rcases bi with _ | ⟨x, xs⟩
      · rw [show chAt ([] : List Char) 0 = nulc from rfl] at hi32
        exact absurd hi32 (by decide)
      · simp
    refine ⟨'{' :: (bi ++ ['}']), ?_, by simp, ⟨by rw [chAt_cons_zero]; decide,
      by rw [chAt_cons_zero]; decide, by rw [chAt_cons_zero]; decide,
      by rw [chAt_cons_zero]; decide⟩, ?_, ?_, ?_⟩
    · simp only [print_value]
      rw [if_neg (by rw [hty]; decide), if_neg (by rw [hty]; decide),
        if_neg (by rw [hty]; decide), if_neg (by rw [hty]; decide),
        if_neg (by rw [hty]; decide), if_neg (by rw [hty]; decide), if_pos hty]
      rw [hpi]
      rfl
    · intro x hx
      simp only [List.mem_cons, List.mem_append, List.mem_singleton,
        List.not_mem_nil, or_false] at hx
      rcases hx with hx | hx | hx
      · rw [hx]; decide
      · exact hinul x hx
      · rw [hx]; decide
    · simp only [needFuel, List.length_cons, List.length_append,
        List.length_singleton]
      omega
    · intro pre rest err fuel hsep hfuel
      have hnf : needFuel (cJSONv.mk ty none 0 (.finite 0 1) key ch)
          = 3 + needFuelList ch := by
        simp [needFuel]
      rw [hnf] at hfuel
      have hflb : needFuelList ch ≤ 3 * bi.length + 1 := hifuel
      obtain ⟨f2, rfl⟩ : ∃ f2, fuel = f2 + 2 := ⟨fuel - 2, by omega⟩
      have hf2 : needFuelList ch ≤ f2 := by omega
      set mem := pre ++ (('{' :: (bi ++ ['}'])) ++ rest) with hmem
      have hdecomp : mem = (pre ++ ['{']) ++ (bi ++ ('}' :: rest)) := by
        rw [hmem]; simp
      have hlen : mem.length = pre.length + (bi.length + 2 + rest.length) := by
        rw [hmem]; simp; omega
      have h0 : chAt mem pre.length = '{' := by
        rw [hmem]
        have := chAt_mid pre ('{' :: (bi ++ ['}'])) rest 0 (by simp)
        simpa using this
      have h1 : chAt mem (pre.length + 1) = chAt bi 0 := by
        rw [hdecomp]
        have := chAt_mid (pre ++ ['{']) bi ('}' :: rest) 0 hbpos
        simpa using this
      have hclose : chAt mem (pre.length + 1 + bi.length) = '}' := by
        rw [hdecomp]
        have h2 := chAt_append_right (pre ++ ['{']) (bi ++ ('}' :: rest)) bi.length
        have h3 := chAt_append_right bi ('}' :: rest) 0
        simp only [List.length_append, List.length_singleton] at h2
        calc chAt ((pre ++ ['{']) ++ (bi ++ ('}' :: rest))) (pre.length + 1 + bi.length)
            = chAt (bi ++ ('}' :: rest)) bi.length := by
              rw [← h2]
          _ = '}' := by simpa using h3
      obtain ⟨rs, hpits, hsl⟩ := hiparse (pre ++ ['{']) ('}' :: rest) [] err f2
        (Or.inr (Or.inl rfl)) hf2
      have e1 : (pre ++ ['{']).length = pre.length + 1 := by simp
      rw [← hdecomp] at hpits
      rw [e1] at hpits
      simp only [List.nil_append] at hpits
      have hdisp := parse_value_open_brace mem (f2 + 1) pre.length err
        (by omega) h0
      refine ⟨.mk cJSON_Object none 0 (.finite 0 1) none rs, ?_, rfl, ?_⟩
      · rw [show f2 + 2 = (f2 + 1) + 1 by omega, hdisp]
        simp only [parse_object]
        rw [if_neg (not_not_intro h0)]
        rw [skip_noop_char mem mem.length (pre.length + 1) (by rw [h1]; exact hi32)]
        rw [if_neg (by rintro ⟨-, hx⟩; rw [h1] at hx; exact hine2 hx)]
        rw [hpits]
        simp [hclose, List.length_append] <;> omega
      · simp +decide [structEqVal, cJSONv.withKey, structEq, hty, hsl]


theorem print_items_cons_ne (c : cJSONv) (cs : List cJSONv) (h : cs ≠ [])
    (bc bt : List Char) (hpc : print_value c = some bc)
    (hpt : print_items cs = some bt) :
    print_items (c :: cs) = some (bc ++ ',' :: bt) := by
  rcases cs with _ | ⟨d, ds⟩
  · exact absurd rfl h
  · conv_lhs => rw [print_items]
    rw [hpc, hpt]

theorem print_members_cons_ne (c : cJSONv) (cs : List cJSONv) (h : cs ≠ [])
    (bc bt : List Char) (hpc : print_value c = some bc)
    (hpt : print_members cs = some bt) :
    print_members (c :: cs)
      = some ((print_string_ptr c.string ++ ':' :: bc) ++ ',' :: bt) := by
  rcases cs with _ | ⟨d, ds⟩
  · exact absurd rfl h
  · conv_lhs => rw [print_members]
    rw [hpc, hpt]

theorem print_members_single (c : cJSONv) (bc : List Char)
    (hpc : print_value c = some bc) :
    print_members [c] = some (print_string_ptr c.string ++ ':' :: bc) := by
  conv_lhs => rw [print_members]
  rw [hpc]

theorem roundItems_step (c : cJSONv) (cs : List cJSONv)
    (hkey : c.string = none) (hrv : RoundView c) (htail : RoundItems cs) :
    RoundItems (c :: cs) := by
  obtain ⟨bc, hpc, hbne, ⟨hc32, hcne1, hcne2, hcne3⟩, hcnul, hcfuel, hcparse⟩ := hrv
  intro _
  have hbcpos : 0 < bc.length := List.length_pos.mpr hbne
  by_cases hcs : cs = []
  · subst hcs
    refine ⟨bc, ?_, ⟨hc32, hcne1, hcne2⟩, hcnul, ?_, ?_⟩
    · conv_lhs => rw [print_items]
      rw [hpc]
    · simp only [needFuelList]
      omega
    · intro pre rest accT err fuel hend hfuel
      have h1 : 1 + needFuel c ≤ fuel := by
        simp only [needFuelList] at hfuel
        omega
      obtain ⟨f, rfl⟩ : ∃ f, fuel = f + 1 := ⟨fuel - 1, by omega⟩
      set mem := pre ++ (bc ++ rest) with hmem
      have hb0 : chAt mem pre.length = chAt bc 0 := by
        rw [hmem]
        have := chAt_mid pre bc rest 0 hbcpos
        simpa using this
      have hskip : skip_whitespace mem mem.length pre.length = pre.length :=
        skip_noop_char _ _ _ (by rw [hb0]; exact hc32)
      obtain ⟨r, hpv, hrkey, hsev⟩ := hcparse pre rest err f (Or.inr hend) (by omega)
      rw [← hmem] at hpv
      have hoff1 : chAt mem (pre.length + bc.length) = chAt rest 0 := by
        rw [hmem, show pre ++ (bc ++ rest) = (pre ++ bc) ++ rest by simp,
          show pre.length + bc.length = (pre ++ bc).length by simp]
        have := chAt_append_right (pre ++ bc) rest 0
        simpa using this
      have hpair : skip_whitespace mem mem.length (pre.length + bc.length)
            = pre.length + bc.length ∧
          ¬(pre.length + bc.length < mem.length ∧
            chAt mem (pre.length + bc.length) = ',') := by
        rcases hend with hx | hx | hx
        · have hc9 : chAt mem (pre.length + bc.length) = ']' := by
            rw [hoff1]; exact hx
          exact ⟨skip_noop_char _ _ _ (by rw [hc9]; decide),
            by rintro ⟨-, hcm⟩; rw [hc9] at hcm; exact absurd hcm (by decide)⟩
        · have hc9 : chAt mem (pre.length + bc.length) = '}' := by
            rw [hoff1]; exact hx
          exact ⟨skip_noop_char _ _ _ (by rw [hc9]; decide),
            by rintro ⟨-, hcm⟩; rw [hc9] at hcm; exact absurd hcm (by decide)⟩
        · have hlen0 : mem.length = pre.length + bc.length := by
            rw [hmem, hx]; simp
          exact ⟨skip_noop_at_end _ _ _ (by omega),
            by rintro ⟨hlt2, -⟩; omega⟩
      obtain ⟨hskip2, hnocomma⟩ := hpair
      have hseq : structEq c r = true :=
        structEq_of_parts c r (by rw [hkey, hrkey]) hsev
      refine ⟨[r], ?_, ?_⟩
      · simp only [parse_items]
        rw [hskip, hpv]
        simp [hskip2, hnocomma]
      · simp [structEqList, hseq]
  · obtain ⟨bt, hpt, ⟨ht32, htne1, htne2⟩, htnul, htfuel, htparse⟩ := htail hcs
    refine ⟨bc ++ ',' :: bt, print_items_cons_ne c cs hcs bc bt hpc hpt, ?_, ?_, ?_, ?_⟩
    · refine ⟨?_, ?_, ?_⟩
      · rw [chAt_append_left _ _ _ hbcpos]
        exact hc32
      · rw [chAt_append_left _ _ _ hbcpos]
        exact hcne1
      · rw [chAt_append_left _ _ _ hbcpos]
        exact hcne2
    · intro x hx
      simp only [List.mem_append, List.mem_cons] at hx
      rcases hx with hx | hx | hx
      · exact hcnul x hx
      · rw [hx]; decide
      · exact htnul x hx
    · simp only [needFuelList, List.length_append, List.length_cons]
      omega
    · intro pre rest accT err fuel hend hfuel
      have h1 : 1 + needFuel c + needFuelList cs ≤ fuel := by
        simp only [needFuelList] at hfuel
        omega
      obtain ⟨f, rfl⟩ : ∃ f, fuel = f + 1 := ⟨fuel - 1, by omega⟩
      have hassoc : pre ++ ((bc ++ ',' :: bt) ++ rest)
          = pre ++ (bc ++ (',' :: (bt ++ rest))) := by simp
      rw [hassoc]
      set mem := pre ++ (bc ++ (',' :: (bt ++ rest))) with hmem
      have hlen : mem.length
          = pre.length + (bc.length + (1 + (bt.length + rest.length))) := by
        rw [hmem]; simp <;> omega
      have hb0 : chAt mem pre.length = chAt bc 0 := by
        rw [hmem]
        have := chAt_mid pre bc (',' :: (bt ++ rest)) 0 hbcpos
        simpa using this
      have hskip : skip_whitespace mem mem.length pre.length = pre.length :=
        skip_noop_char _ _ _ (by rw [hb0]; exact hc32)
      obtain ⟨r, hpv, hrkey, hsev⟩ := hcparse pre (',' :: (bt ++ rest)) err f
        (Or.inl rfl) (by omega)
      rw [← hmem] at hpv
      have hcomma : chAt mem (pre.length + bc.length) = ',' := by
        rw [hmem, show pre ++ (bc ++ (',' :: (bt ++ rest)))
            = (pre ++ bc) ++ (',' :: (bt ++ rest)) by simp,
          show pre.length + bc.length = (pre ++ bc).length by simp]
        have := chAt_append_right (pre ++ bc) (',' :: (bt ++ rest)) 0
        simpa using this
      have hskip2 : skip_whitespace mem mem.length (pre.length + bc.length)
          = pre.length + bc.length :=
        skip_noop_char _ _ _ (by rw [hcomma]; decide)
      have hlt2 : pre.length + bc.length < mem.length := by omega
      have hdecomp : mem = ((pre ++ bc) ++ [',']) ++ (bt ++ rest) := by
        rw [hmem]; simp
      obtain ⟨rs2, hpits, hsl2⟩ := htparse ((pre ++ bc) ++ [',']) rest
        (accT ++ [r]) err f hend (by omega)
      have e1 : ((pre ++ bc) ++ [',']).length = pre.length + bc.length + 1 := by
        simp <;> omega
      rw [← hdecomp] at hpits
      rw [e1] at hpits
      have hseq : structEq c r = true :=
        structEq_of_parts c r (by rw [hkey, hrkey]) hsev
      refine ⟨r :: rs2, ?_, ?_⟩
      · simp only [parse_items]
        rw [hskip, hpv]
        simp only [hskip2]
        rw [if_pos ⟨hlt2, hcomma⟩]
        rw [hpits]
        simp [List.length_append] <;> omega
      · simp only [structEqList, hseq, hsl2]
        simp

theorem roundMembers_step (c : cJSONv) (cs : List cJSONv) (k : List Char)
    (hkey : c.string = some k) (hk : goodString k = true)
    (hrv : RoundView c) (htail : RoundMembers cs) :
    RoundMembers (c :: cs) := by
  obtain ⟨bc, hpc, hbne, ⟨hc32, hcne1, hcne2, hcne3⟩, hcnul, hcfuel, hcparse⟩ := hrv
  intro _
  have hbcpos : 0 < bc.length := List.length_pos.mpr hbne
  have hpsp : print_string_ptr (some k) = '"' :: (escBody k ++ ['"']) := by
    simp [print_string_ptr]
  have hpspnul : ∀ x ∈ print_string_ptr (some k), x ≠ nulc := by
    intro x hx
    rw [hpsp] at hx
    simp only [List.mem_cons, List.mem_append, List.mem_singleton,
      List.not_mem_nil, or_false] at hx
    rcases hx with hx | hx | hx
    · rw [hx]; decide
    · exact escBody_no_nul k hk x hx
    · rw [hx]; decide
  have hpsplen : 2 ≤ (print_string_ptr (some k)).length := by
    rw [hpsp]; simp
  have hmb : (print_string_ptr c.string ++ ':' :: bc)
      = print_string_ptr (some k) ++ ':' :: bc := by rw [hkey]
  by_cases hcs : cs = []
  · subst hcs
    refine ⟨print_string_ptr (some k) ++ ':' :: bc, ?_, ⟨?_, ?_, ?_⟩, ?_, ?_, ?_⟩
    · rw [print_members_single c bc hpc, hmb]
    · rw [chAt_append_left _ _ _ (by omega), hpsp, chAt_cons_zero]; decide
    · rw [chAt_append_left _ _ _ (by omega), hpsp, chAt_cons_zero]; decide
    · rw [chAt_append_left _ _ _ (by omega), hpsp, chAt_cons_zero]; decide
    · intro x hx
      simp only [List.mem_append, List.mem_cons] at hx
      rcases hx with hx | hx | hx
      · exact hpspnul x hx
      · rw [hx]; decide
      · exact hcnul x hx
    · simp only [needFuelList, List.length_append, List.length_cons]
      omega
    · intro pre rest accT err fuel hend hfuel
      have h1 : 1 + needFuel c ≤ fuel := by
        simp only [needFuelList] at hfuel
        omega
      obtain ⟨f, rfl⟩ : ∃ f, fuel = f + 1 := ⟨fuel - 1, by omega⟩
      have hassoc : pre ++ ((print_string_ptr (some k) ++ ':' :: bc) ++ rest)
          = pre ++ (print_string_ptr (some k) ++ (':' :: (bc ++ rest))) := by simp
      rw [hassoc]
      set mem := pre ++ ((print_string_ptr (some k)) ++ (':' :: (bc ++ rest))) with hmem
      have hlen : mem.length
          = pre.length + ((print_string_ptr (some k)).length + (1 + (bc.length + rest.length))) := by
        rw [hmem]; simp <;> omega
      have hb0 : chAt mem pre.length = '"' := by
        rw [hmem, hpsp]
        have := chAt_mid pre ('"' :: (escBody k ++ ['"']))
          (':' :: (bc ++ rest)) 0 (by simp)
        simpa using this
      have hskip : skip_whitespace mem mem.length pre.length = pre.length :=
        skip_noop_char _ _ _ (by rw [hb0]; decide)
      have hps := parse_string_print k hk pre (':' :: (bc ++ rest)) err
      rw [← hmem] at hps
      have hcolon : chAt mem (pre.length + (print_string_ptr (some k)).length) = ':' := by
        rw [hmem, show pre ++ ((print_string_ptr (some k)) ++ (':' :: (bc ++ rest)))
            = (pre ++ (print_string_ptr (some k))) ++ (':' :: (bc ++ rest)) by simp,
          show pre.length + (print_string_ptr (some k)).length = (pre ++ (print_string_ptr (some k))).length by simp]
        have := chAt_append_right (pre ++ (print_string_ptr (some k))) (':' :: (bc ++ rest)) 0
        simpa using this
      have hskipc : skip_whitespace mem mem.length (pre.length + (print_string_ptr (some k)).length)
          = pre.length + (print_string_ptr (some k)).length :=
        skip_noop_char _ _ _ (by rw [hcolon]; decide)
      have hd2 : mem = ((pre ++ (print_string_ptr (some k))) ++ [':']) ++ (bc ++ rest) := by
        rw [hmem]; simp
      have e2 : ((pre ++ (print_string_ptr (some k))) ++ [':']).length = pre.length + (print_string_ptr (some k)).length + 1 := by
        simp <;> omega
      have hb3 : chAt mem (pre.length + (print_string_ptr (some k)).length + 1) = chAt bc 0 := by
        rw [hd2, ← e2]
        have := chAt_mid ((pre ++ (print_string_ptr (some k))) ++ [':']) bc rest 0 hbcpos
        simpa using this
      have hskip3 : skip_whitespace mem mem.length (pre.length + (print_string_ptr (some k)).length + 1)
          = pre.length + (print_string_ptr (some k)).length + 1 :=
        skip_noop_char _ _ _ (by rw [hb3]; exact hc32)
      obtain ⟨r, hpv, hrkey, hsev⟩ := hcparse ((pre ++ (print_string_ptr (some k))) ++ [':']) rest err f
        (Or.inr hend) (by omega)
      rw [← hd2] at hpv
      rw [e2] at hpv
      have hoff4 : chAt mem (pre.length + (print_string_ptr (some k)).length + 1 + bc.length)
          = chAt rest 0 := by
        rw [hd2, show ((pre ++ (print_string_ptr (some k))) ++ [':']) ++ (bc ++ rest)
            = (((pre ++ (print_string_ptr (some k))) ++ [':']) ++ bc) ++ rest by simp,
          show pre.length + (print_string_ptr (some k)).length + 1 + bc.length
            = ((((pre ++ (print_string_ptr (some k))) ++ [':']) ++ bc)).length by simp <;> omega]
        have := chAt_append_right (((pre ++ (print_string_ptr (some k))) ++ [':']) ++ bc) rest 0
        simpa using this
      have hpair : skip_whitespace mem mem.length
            (pre.length + (print_string_ptr (some k)).length + 1 + bc.length)
            = pre.length + (print_string_ptr (some k)).length + 1 + bc.length ∧
          ¬(pre.length + (print_string_ptr (some k)).length + 1 + bc.length < mem.length ∧
            chAt mem (pre.length + (print_string_ptr (some k)).length + 1 + bc.length) = ',') := by
        rcases hend with hx | hx | hx
        · have hc9 : chAt mem (pre.length + (print_string_ptr (some k)).length + 1 + bc.length) = ']' := by
            rw [hoff4]; exact hx
          exact ⟨skip_noop_char _ _ _ (by rw [hc9]; decide),
            by rintro ⟨-, hcm⟩; rw [hc9] at hcm; exact absurd hcm (by decide)⟩
        · have hc9 : chAt mem (pre.length + (print_string_ptr (some k)).length + 1 + bc.length) = '}' := by
            rw [hoff4]; exact hx
          exact ⟨skip_noop_char _ _ _ (by rw [hc9]; decide),
            by rintro ⟨-, hcm⟩; rw [hc9] at hcm; exact absurd hcm (by decide)⟩
        · have hlen0 : mem.length = pre.length + (print_string_ptr (some k)).length + 1 + bc.length := by
            rw [hmem, hx]; simp <;> omega
          exact ⟨skip_noop_at_end _ _ _ (by omega),
            by rintro ⟨hlt2, -⟩; omega⟩
      obtain ⟨hskip4, hnocomma⟩ := hpair
      have hseq : structEq c (r.withKey (some k)) = true := by
        apply structEq_of_parts
        · rw [hkey, withKey_string]
        · rw [structEqVal_withKey]
          exact hsev
      refine ⟨[r.withKey (some k)], ?_, ?_⟩
      · simp only [parse_members]
        rw [hskip, hps]
        simp [hskipc, hcolon, hskip3, hpv, hskip4, hnocomma] <;> omega
      · simp [structEqList, hseq]
  · obtain ⟨bt, hpt, ⟨ht32, htne1, htne2⟩, htnul, htfuel, htparse⟩ := htail hcs
    refine ⟨(print_string_ptr (some k) ++ ':' :: bc) ++ ',' :: bt, ?_,
      ⟨?_, ?_, ?_⟩, ?_, ?_, ?_⟩
    · rw [print_members_cons_ne c cs hcs bc bt hpc hpt, hmb]
    · rw [chAt_append_left _ _ _ (by simp <;> omega),
        chAt_append_left _ _ _ (by omega), hpsp, chAt_cons_zero]
      decide
    · rw [chAt_append_left _ _ _ (by simp <;> omega),
        chAt_append_left _ _ _ (by omega), hpsp, chAt_cons_zero]
      decide
    · rw [chAt_append_left _ _ _ (by simp <;> omega),
        chAt_append_left _ _ _ (by omega), hpsp, chAt_cons_zero]
      decide
    · intro x hx
      simp only [List.mem_append, List.mem_cons] at hx
      rcases hx with (hx | hx | hx) | hx | hx
      · exact hpspnul x hx
      · rw [hx]; decide
      · exact hcnul x hx
      · rw [hx]; decide
      · exact htnul x hx
    · simp only [needFuelList, List.length_append, List.length_cons]
      omega
    · intro pre rest accT err fuel hend hfuel
      have h1 : 1 + needFuel c + needFuelList cs ≤ fuel := by
        simp only [needFuelList] at hfuel
        omega
      obtain ⟨f, rfl⟩ : ∃ f, fuel = f + 1 := ⟨fuel - 1, by omega⟩
      have hassoc : pre ++ (((print_string_ptr (some k) ++ ':' :: bc) ++ ',' :: bt) ++ rest)
          = pre ++ (print_string_ptr (some k)
              ++ (':' :: (bc ++ (',' :: (bt ++ rest))))) := by simp
      rw [hassoc]
      set mem := pre ++ (print_string_ptr (some k)
        ++ (':' :: (bc ++ (',' :: (bt ++ rest))))) with hmem
      have hlen : mem.length = pre.length + ((print_string_ptr (some k)).length
          + (1 + (bc.length + (1 + (bt.length + rest.length))))) := by
        rw [hmem]; simp <;> omega
      have hb0 : chAt mem pre.length = '"' := by
        rw [hmem, hpsp]
        have := chAt_mid pre ('"' :: (escBody k ++ ['"']))
          (':' :: (bc ++ (',' :: (bt ++ rest)))) 0 (by simp)
        simpa using this
      have hskip : skip_whitespace mem mem.length pre.length = pre.length :=
        skip_noop_char _ _ _ (by rw [hb0]; decide)
      have hps := parse_string_print k hk pre (':' :: (bc ++ (',' :: (bt ++ rest)))) err
      rw [← hmem] at hps
      have hcolon : chAt mem (pre.length + (print_string_ptr (some k)).length) = ':' := by
        rw [hmem, show pre ++ (print_string_ptr (some k)
              ++ (':' :: (bc ++ (',' :: (bt ++ rest)))))
            = (pre ++ print_string_ptr (some k))
              ++ (':' :: (bc ++ (',' :: (bt ++ rest)))) by simp,
          show pre.length + (print_string_ptr (some k)).length
            = (pre ++ print_string_ptr (some k)).length by simp]
        have := chAt_append_right (pre ++ print_string_ptr (some k))
          (':' :: (bc ++ (',' :: (bt ++ rest)))) 0
        simpa using this
      have hskipc : skip_whitespace mem mem.length
          (pre.length + (print_string_ptr (some k)).length)
          = pre.length + (print_string_ptr (some k)).length :=
        skip_noop_char _ _ _ (by rw [hcolon]; decide)
      have hd2 : mem = ((pre ++ print_string_ptr (some k)) ++ [':'])
          ++ (bc ++ (',' :: (bt ++ rest))) := by
        rw [hmem]; simp
      have e2 : ((pre ++ print_string_ptr (some k)) ++ [':']).length
          = pre.length + (print_string_ptr (some k)).length + 1 := by
        simp <;> omega
      have hb3 : chAt mem (pre.length + (print_string_ptr (some k)).length + 1)
          = chAt bc 0 := by
        rw [hd2, ← e2]
        have := chAt_mid ((pre ++ print_string_ptr (some k)) ++ [':']) bc
          (',' :: (bt ++ rest)) 0 hbcpos
        simpa using this
      have hskip3 : skip_whitespace mem mem.length
          (pre.length + (print_string_ptr (some k)).length + 1)
          = pre.length + (print_string_ptr (some k)).length + 1 :=
        skip_noop_char _ _ _ (by rw [hb3]; exact hc32)
      obtain ⟨r, hpv, hrkey, hsev⟩ := hcparse
        ((pre ++ print_string_ptr (some k)) ++ [':']) (',' :: (bt ++ rest)) err f
        (Or.inl rfl) (by omega)
      rw [← hd2] at hpv
      rw [e2] at hpv
      have hcomma : chAt mem
          (pre.length + (print_string_ptr (some k)).length + 1 + bc.length) = ',' := by
        rw [hd2, show ((pre ++ print_string_ptr (some k)) ++ [':'])
              ++ (bc ++ (',' :: (bt ++ rest)))
            = (((pre ++ print_string_ptr (some k)) ++ [':']) ++ bc)
              ++ (',' :: (bt ++ rest)) by simp,
          show pre.length + (print_string_ptr (some k)).length + 1 + bc.length
            = ((((pre ++ print_string_ptr (some k)) ++ [':']) ++ bc)).length by
              simp <;> omega]
        have := chAt_append_right
          (((pre ++ print_string_ptr (some k)) ++ [':']) ++ bc)
          (',' :: (bt ++ rest)) 0
        simpa using this
      have hskip4 : skip_whitespace mem mem.length
          (pre.length + (print_string_ptr (some k)).length + 1 + bc.length)
          = pre.length + (print_string_ptr (some k)).length + 1 + bc.length :=
        skip_noop_char _ _ _ (by rw [hcomma]; decide)
      have hlt4 : pre.length + (print_string_ptr (some k)).length + 1 + bc.length
          < mem.length := by omega
      have hd4 : mem = ((((pre ++ print_string_ptr (some k)) ++ [':']) ++ bc) ++ [','])
          ++ (bt ++ rest) := by
        rw [hmem]; simp
      have e4 : (((((pre ++ print_string_ptr (some k)) ++ [':']) ++ bc) ++ [','])).length
          = pre.length + (print_string_ptr (some k)).length + 1 + bc.length + 1 := by
        simp <;> omega
      obtain ⟨rs2, hpits, hsl2⟩ := htparse
        ((((pre ++ print_string_ptr (some k)) ++ [':']) ++ bc) ++ [',']) rest
        (accT ++ [r.withKey (some k)]) err f hend (by omega)
      rw [← hd4] at hpits
      rw [e4] at hpits
      have hseq : structEq c (r.withKey (some k)) = true := by
        apply structEq_of_parts
        · rw [hkey, withKey_string]
        · rw [structEqVal_withKey]
          exact hsev
      refine ⟨r.withKey (some k) :: rs2, ?_, ?_⟩
      · simp only [parse_members]
        rw [hskip, hps]
        simp only [hskipc]
        rw [if_neg (not_not_intro hcolon)]
        simp only [hskip3]
        rw [hpv]
        simp only [hskip4]
        rw [if_pos ⟨hlt4, hcomma⟩]
        rw [hpits]
        simp [List.length_append] <;> omega
      · simp only [structEqList, hseq, hsl2]
        simp

theorem parse_print_main :
    ∀ n : Nat,
      (∀ t : cJSONv, sizeOf t ≤ n → goodVal true t = true → RoundView t) ∧
      (∀ cs : List cJSONv, sizeOf cs ≤ n → goodElems cs = true → RoundItems cs) ∧
      (∀ cs : List cJSONv, sizeOf cs ≤ n → goodMembers cs = true → RoundMembers cs) := by
  intro n
  induction n with
  | zero =>
    refine ⟨?_, ?_, ?_⟩
    · intro t hsz _
      have := sizeOf_cJSONv_pos t
      omega
    · intro cs hsz _
      cases cs with
      | nil => intro h; exact absurd rfl h
      | cons c l =>
        have := sizeOf_cons_head c l
        have := sizeOf_cJSONv_pos c
        omega
    · intro cs hsz _
      cases cs with
      | nil => intro h; exact absurd rfl h
      | cons c l =>
        have := sizeOf_cons_head c l
        have := sizeOf_cJSONv_pos c
        omega
  | succ n ih =>
    obtain ⟨ihv, ihi, ihm⟩ := ih
    refine ⟨?_, ?_, ?_⟩
    · intro t hsz hg
      cases t with
      | mk ty vs vi vd key ch =>
        simp only [goodVal, Bool.or_eq_true, Bool.and_eq_true] at hg
        rcases hg with (((hlit | hnum) | hstr) | harr) | hobj
        · obtain ⟨⟨⟨⟨hty3, hvs⟩, hvi⟩, hvd⟩, hch⟩ := hlit
          have hvs2 : vs = none := by simpa using hvs
          have hvi2 : vi = 0 := by simpa using hvi
          have hvd2 : vd = CDouble.finite 0 1 := by simpa using hvd
          have hch2 : ch = [] := by simpa using hch
          subst hvs2 hvi2 hvd2 hch2
          rcases hty3 with (hty | hty) | hty
          · rcases hty with hty | ⟨-, hty⟩ <;>
            · have hty2 := of_decide_eq_true hty
              subst hty2
              exact roundView_lit_null _ key (by decide)
          · rcases hty with hty | ⟨-, hty⟩ <;>
            · have hty2 := of_decide_eq_true hty
              subst hty2
              exact roundView_lit_true _ key (by decide)
          · rcases hty with hty | ⟨-, hty⟩ <;>
            · have hty2 := of_decide_eq_true hty
              subst hty2
              exact roundView_lit_false _ key (by decide)
        · obtain ⟨⟨⟨htyo, hvs⟩, hch⟩, hnum2⟩ := hnum
          have hvs2 : vs = none := by simpa using hvs
          have hch2 : ch = [] := by simpa using hch
          subst hvs2 hch2
          cases vd with
          | finite nn dd =>
            simp only [Bool.and_eq_true, decide_eq_true_eq] at hnum2
            obtain ⟨⟨⟨hd, hvi⟩, hmin⟩, hmax⟩ := hnum2
            rcases htyo with hty | ⟨-, hty⟩ <;>
            · have hty2 := of_decide_eq_true hty
              subst hty2
              exact roundView_number _ vi nn dd key (by decide) hd hvi
          | nan => simp at hnum2
          | inf s => simp at hnum2
        · obtain ⟨⟨⟨⟨htyo, hvi⟩, hvd⟩, hch⟩, hstr2⟩ := hstr
          have hvi2 : vi = 0 := by simpa using hvi
          have hvd2 : vd = CDouble.finite 0 1 := by simpa using hvd
          have hch2 : ch = [] := by simpa using hch
          subst hvi2 hvd2 hch2
          cases vs with
          | none => simp at hstr2
          | some str2 =>
            have hgs : goodString str2 = true := by simpa using hstr2
            rcases htyo with hty | ⟨-, hty⟩ <;>
            · have hty2 := of_decide_eq_true hty
              subst hty2
              exact roundView_string _ str2 key (by decide) hgs
        · obtain ⟨⟨⟨⟨htyo, hvs⟩, hvi⟩, hvd⟩, hel⟩ := harr
          have hvs2 : vs = none := by simpa using hvs
          have hvi2 : vi = 0 := by simpa using hvi
          have hvd2 : vd = CDouble.finite 0 1 := by simpa using hvd
          subst hvs2 hvi2 hvd2
          have hri : RoundItems ch := by
            apply ihi ch ?_ hel
            have := sizeOf_mk_child ty none 0 (CDouble.finite 0 1) key ch
            omega
          rcases htyo with hty | ⟨-, hty⟩ <;>
          · have hty2 := of_decide_eq_true hty
            subst hty2
            exact roundView_array _ ch key (by decide) hri
        · obtain ⟨⟨⟨⟨htyo, hvs⟩, hvi⟩, hvd⟩, hmem2⟩ := hobj
          have hvs2 : vs = none := by simpa using hvs
          have hvi2 : vi = 0 := by simpa using hvi
          have hvd2 : vd = CDouble.finite 0 1 := by simpa using hvd
          subst hvs2 hvi2 hvd2
          have hrm : RoundMembers ch := by
            apply ihm ch ?_ hmem2
            have := sizeOf_mk_child ty none 0 (CDouble.finite 0 1) key ch
            omega
          rcases htyo with hty | ⟨-, hty⟩ <;>
          · have hty2 := of_decide_eq_true hty
            subst hty2
            exact roundView_object _ ch key (by decide) hrm
    · intro cs
      induction cs with
      | nil =>
        intro _ _ h
        exact absurd rfl h
      | cons c cs2 ihl =>
        intro hsz hg
        simp only [goodElems, Bool.and_eq_true] at hg
        obtain ⟨⟨hkey, hgv⟩, htail⟩ := hg
        have hkey2 : c.string = none := by simpa using hkey
        have hsc : sizeOf c ≤ n := by
          have := sizeOf_cons_head c cs2
          omega
        have hrv : RoundView c := ihv c hsc (goodVal_mono c hgv)
        have htl : RoundItems cs2 := by
          apply ihl ?_ htail
          have := sizeOf_cons_tail c cs2
          omega
        exact roundItems_step c cs2 hkey2 hrv htl
    · intro cs
      induction cs with
      | nil =>
        intro _ _ h
        exact absurd rfl h
      | cons c cs2 ihl =>
        intro hsz hg
        simp only [goodMembers, Bool.and_eq_true] at hg
        obtain ⟨⟨hkm, hgv⟩, htail⟩ := hg
        cases hcstr : c.string with
        | none =>
          rw [hcstr] at hkm
          simp at hkm
        | some k =>
          rw [hcstr] at hkm
          have hgk : goodString k = true := by simpa using hkm
          have hsc : sizeOf c ≤ n := by
            have := sizeOf_cons_head c cs2
            omega
          have hrv : RoundView c := ihv c hsc hgv
          have htl : RoundMembers cs2 := by
            apply ihl ?_ htail
            have := sizeOf_cons_tail c cs2
            omega
          exact roundMembers_step c cs2 k hcstr hgk hrv htl

/-- C1 counterexample: a Raw node does not survive the round trip.
`cJSON_CreateRaw` stores the raw text in `valuestring`, and `print_value`
prints a Raw node through `print_string_ptr`, exactly like a String node
(the `case cJSON_Raw:` label falls through in the C source), so the
serialization of `cJSON_CreateRaw("x")` is the quoted text `"x"`, whose
parse is a String-kind node: the kinds differ and structural equality
fails. -/
theorem raw_node_breaks_roundtrip :
    cJSON_IsRaw (some (cJSON_CreateRaw (some ['x']))) = true ∧
    ∃ r, cJSON_Parse none (cJSON_PrintUnformatted (some (cJSON_CreateRaw (some ['x']))))
        = (some r, none) ∧ cJSON_IsRaw (some r) = false ∧
      structEq (cJSON_CreateRaw (some ['x'])) r = false := by
  refine ⟨by decide, .mk cJSON_String (some ['x']) 0 (.finite 0 1) none [], ?_, by decide, ?_⟩
  · simp +decide [cJSON_Parse, cJSON_ParseWithLength, cJSON_PrintUnformatted,
      cJSON_CreateRaw, print_value, print_string_ptr, escBody, escChar, cstrlen,
      parse_fuel, parse_value, parse_string, scanStringEnd, decodeStringBody,
      skip_whitespace, chAt, strncmp0, nulc, isDigitCh, List.getD]
  · simp +decide [cJSON_CreateRaw, structEq, structEqList]

/-- C1 (amended): for every tree of Builder-API shape — no Raw nodes, no
absent (NULL) string values, no `\u`-escaping control characters in
strings, finite numbers with an in-range integer truncation — parsing the
serialization yields a structurally equal tree: same kinds, same keys in
order, equal strings, and equal values on integer-valued numbers.  The
parse also leaves the error slot clear. -/
theorem builder_roundtrip (prevErr : Option String) (t : cJSONv)
    (hgood : goodTree t = true) :
    ∃ r, cJSON_Parse prevErr (cJSON_PrintUnformatted (some t))
        = (some r, none) ∧ structEq t r = true := by
  have hg2 : t.string.isNone = true ∧ goodVal false t = true := by
    simpa [goodTree, Bool.and_eq_true] using hgood
  have hkey : t.string = none := by simpa using hg2.1
  have hrv : RoundView t :=
    (parse_print_main (sizeOf t)).1 t le_rfl (goodVal_mono t hg2.2)
  obtain ⟨body, hpv, hbne, hfacts, hnul, hfuel, hparse⟩ := hrv
  obtain ⟨r, hp, hrkey, hsev⟩ := hparse [] [] none (parse_fuel body.length)
    (Or.inr (Or.inr (Or.inr rfl))) (by simp only [parse_fuel]; omega)
  simp only [List.nil_append, List.append_nil, List.length_nil] at hp
  have hcs : cstrlen body = body.length := cstrlen_of_no_nul body hnul
  refine ⟨r, ?_, structEq_of_parts t r (by rw [hkey, hrkey]) hsev⟩
  simp only [cJSON_Parse, cJSON_PrintUnformatted, hpv, cJSON_ParseWithLength, hcs]
  rw [if_neg (by simpa using hbne)]
  rw [hp]

/-- A concrete Builder-API tree for exercising the round trip:
`{"a":3,"b":[true]}` assembled with the create and add-item calls. -/
def roundtripWitnessTree : cJSONv :=
  cJSON_AddItemToObject
    (cJSON_AddItemToObject cJSON_CreateObject ['a'] (cJSON_CreateNumber (.finite 3 1)))
    ['b']
    (add_item_to_array cJSON_CreateArray cJSON_CreateTrue)

theorem builder_roundtrip_witness :
    goodTree roundtripWitnessTree = true ∧
    ∃ r, cJSON_Parse none (cJSON_PrintUnformatted (some roundtripWitnessTree))
        = (some r, none) ∧ structEq roundtripWitnessTree r = true :=
  ⟨by simp +decide [roundtripWitnessTree, goodTree, goodVal, goodElems, goodMembers,
      goodString, goodChar, cJSON_AddItemToObject, add_item_to_object, add_item_to_array,
      cJSON_CreateObject, cJSON_CreateArray, cJSON_CreateNumber, cJSON_CreateTrue,
      cJSONv.string, dtrunc, intMin, intMax],
    builder_roundtrip none roundtripWitnessTree
      (by simp +decide [roundtripWitnessTree, goodTree, goodVal, goodElems, goodMembers,
        goodString, goodChar, cJSON_AddItemToObject, add_item_to_object, add_item_to_array,
        cJSON_CreateObject, cJSON_CreateArray, cJSON_CreateNumber, cJSON_CreateTrue,
        cJSONv.string, dtrunc, intMin, intMax])⟩
